import Mathlib

/-!
Verification of the access-control and roster-reconciliation logic of the
booking system (sources: `src/context/AuthContext.js` and the user-management
component).  JavaScript strings are modelled as Lean `String`s, with the string
primitives used by the code (`trim`, `toLowerCase`, `endsWith`, lexicographic
comparison) defined structurally over the underlying character list so that all
definitions evaluate inside the kernel.  Nullable JavaScript strings are
`Option String` (with `""` and `null` both falsy, as in JS), Firestore
timestamps are a small inductive type carrying an optional millisecond value,
and the two Firestore collections are association lists keyed by document id.
-/

/-! ## JavaScript value primitives -/

/-- JS `String.prototype.toLowerCase` (ASCII case mapping, as used on emails). -/
def jsToLower (s : String) : String := String.mk (s.data.map Char.toLower)

/-- Strip leading and trailing whitespace from a character list. -/
def trimCharList (l : List Char) : List Char :=
  ((l.dropWhile Char.isWhitespace).reverse.dropWhile Char.isWhitespace).reverse

/-- JS `String.prototype.trim`. -/
def jsTrim (s : String) : String := String.mk (trimCharList s.data)

/-- JS `String.prototype.endsWith`. -/
def jsEndsWith (s suffix : String) : Bool := suffix.data.isSuffixOf s.data

/-- Truthiness of a nullable JS string: `null`/`undefined` and `""` are falsy. -/
def truthyS (a : Option String) : Bool :=
  match a with
  | some s => !(s = "")
  | none => false

/-- JS `x || y` on nullable strings: `x` when truthy, otherwise `y`. -/
def jsOrS (a b : Option String) : Option String :=
  if truthyS a then a else b

/-- JS `x || d` where the fallback `d` is a plain string. -/
def jsFieldOr (a : Option String) (d : String) : String :=
  match a with
  | some s => if s = "" then d else s
  | none => d

/-- First-hit choice between two optional lookup results. -/
def orO {α : Type} (a b : Option α) : Option α :=
  match a with
  | some x => some x
  | none => b

/-- Strict lexicographic order on character lists (model of `localeCompare < 0`). -/
def listLtChar : List Char → List Char → Bool
  | [], [] => false
  | [], _ :: _ => true
  | _ :: _, [] => false
  | a :: as, b :: bs => if a < b then true else if b < a then false else listLtChar as bs

/-- Strict lexicographic order on strings. -/
def strLt (x y : String) : Bool := listLtChar x.data y.data

/-- Model of JS `localeCompare`, as the standard lexicographic comparison. -/
def localeCompare (x y : String) : Int :=
  if strLt x y then -1 else if x = y then 0 else 1

/-- A JS timestamp-like value: `null`/`undefined`, or an object that may or may
not expose a millisecond value (`toMillis`/`toDate`/`Date`). -/
inductive JsTime where
  | null : JsTime
  | obj : Option Int → JsTime
deriving DecidableEq

/-- `tsToMillis` from the user-management component: `null` for a nullish value
or an object with no comparable millisecond value. -/
def tsToMillis : JsTime → Option Int
  | .null => none
  | .obj m => m

/-- JS `x || y` on timestamp values: any object (even without a comparable
millisecond value) is truthy, `null`/`undefined` is falsy. -/
def jsOrT (a b : JsTime) : JsTime :=
  match a with
  | .null => b
  | .obj m => .obj m

/-- `pickMostRecent` from the user-management component: a value with no
comparable milliseconds loses; on comparable values the larger wins (ties keep
the first argument). -/
def pickMostRecent (a b : JsTime) : JsTime :=
  match tsToMillis a, tsToMillis b with
  | none, _ => b
  | some _, none => a
  | some aMs, some bMs => if aMs ≥ bMs then a else b

/-! ## Association-list stores (Firestore collections / JS `Map`) -/

/-- Document lookup by key. -/
def jmapGet {α : Type} : List (String × α) → String → Option α
  | [], _ => none
  | p :: m, k => if p.1 = k then some p.2 else jmapGet m k

/-- Key-membership test. -/
def jmapHas {α : Type} : List (String × α) → String → Bool
  | [], _ => false
  | p :: m, k => p.1 = k || jmapHas m k

/-- Create-or-replace at a key, preserving insertion order (JS `Map.set`,
Firestore `setDoc`). -/
def jmapSet {α : Type} (m : List (String × α)) (k : String) (v : α) : List (String × α) :=
  if jmapHas m k then m.map (fun p => if p.1 = k then (k, v) else p) else m ++ [(k, v)]

/-- The keys of a store, in insertion order. -/
def keysOf {α : Type} (m : List (String × α)) : List String := m.map (fun p => p.1)

/-! ## AuthContext: data model -/

/-- Data of an `approvedUsers` document (the allow-list). -/
structure ApprovedUser where
  email : Option String
  role : Option String
  name : Option String
  displayName : Option String
deriving DecidableEq

/-- The `approvedUsers` collection: document id paired with data. -/
abbrev AllowList := List (String × ApprovedUser)

/-- Device metadata captured from `navigator`. -/
structure DeviceInfo where
  userAgent : String
  platform : String
  language : String
deriving DecidableEq

/-- The signed-in identity delivered by the auth provider. -/
structure Identity where
  uid : String
  email : Option String
  displayName : Option String
  photoURL : Option String
deriving DecidableEq

/-- Data of a `users` document (an activity record); missing fields are
`none`/`JsTime.null`. -/
structure UserRecord where
  email : Option String
  name : Option String
  photoURL : Option String
  role : Option String
  lastLogin : JsTime
  lastActive : JsTime
  loginCount : Option Int
  createdAt : JsTime
  deviceInfo : Option DeviceInfo
  updatedAt : JsTime
deriving DecidableEq

/-- A fresh document with no fields set. -/
def emptyUserRecord : UserRecord :=
  { email := none, name := none, photoURL := none, role := none,
    lastLogin := .null, lastActive := .null, loginCount := none,
    createdAt := .null, deviceInfo := none, updatedAt := .null }

/-- The `users` collection, keyed by auth uid. -/
abbrev Users := List (String × UserRecord)

/-! ## AuthContext: operations -/

/-- `getDoc(doc(db, 'approvedUsers', key))`: lookup by document id. -/
def findApprovedByKey (al : AllowList) (k : String) : Option (String × ApprovedUser) :=
  al.find? (fun p => p.1 == k)

/-- `query(approvedUsers, where('email','==',v), limit(1))`: first document whose
`email` field equals `v`. -/
def findApprovedByEmailField (al : AllowList) (v : String) : Option (String × ApprovedUser) :=
  al.find? (fun p => p.2.email == some v)

/-- `getApprovedUserByEmail` from `AuthContext.js`: ordered back-compat lookup
chain over the allow-list. -/
def getApprovedUserByEmail (al : AllowList) (email : Option String) :
    Option (String × ApprovedUser) :=
  match email with
  | none => none
  | some e =>
    if e = "" then none
    else
      let rawEmail := jsTrim e
      let normalizedEmail := jsToLower rawEmail
      orO (findApprovedByKey al normalizedEmail)
        (orO (if rawEmail ≠ normalizedEmail then findApprovedByKey al rawEmail else none)
          (orO (findApprovedByEmailField al normalizedEmail)
            (if rawEmail ≠ normalizedEmail then findApprovedByEmailField al rawEmail
             else none)))

/-- `(existingData.loginCount || 0)`. -/
def jsCountOr (x : Option Int) : Int := x.getD 0

/-- `updateUserActivity` from `AuthContext.js`: `setDoc(..., { merge: true })`
on the `users` document of the identity's uid, writing the raw provider fields
and bumping `loginCount` from the caller-supplied snapshot data. -/
def updateUserActivity (users : Users) (u : Identity) (dev : DeviceInfo) (now : Int)
    (role : Option String) (existingLoginCount : Option Int) : Users :=
  let base := (jmapGet users u.uid).getD emptyUserRecord
  jmapSet users u.uid
    { base with
        email := u.email,
        name := u.displayName,
        photoURL := jsOrS u.photoURL none,
        role := role,
        lastLogin := JsTime.obj (some now),
        lastActive := JsTime.obj (some now),
        loginCount := some (jsCountOr existingLoginCount + 1),
        deviceInfo := some dev,
        updatedAt := JsTime.obj (some now) }

/-- `authUser.email ? authUser.email.trim().toLowerCase() : null`. -/
def normalizedEmailOf (u : Identity) : Option String :=
  if truthyS u.email then some (jsToLower (jsTrim (u.email.getD ""))) else none

def genericUnauthorizedMsg : String :=
  "Unauthorized user. Please contact the administrator for access."

def unauthorizedMsgFor (e : String) : String :=
  "Unauthorized user (" ++ e ++ "). Please contact the administrator for access."

/-- Result of the `onAuthStateChanged` handler for a present `authUser`:
the React state set by the handler, whether `signOut` was forced, and the
`users` collection afterwards. -/
structure AuthState where
  user : Option Identity
  userRole : Option String
  authError : Option String
  signedOut : Bool
  users : Users
deriving DecidableEq

/-- The `onAuthStateChanged` handler of `AuthContext.js` for a present
`authUser` (the happy path, with the backend available): re-authentication by
uid, otherwise allow-list lookup, otherwise forced sign-out. -/
def authorize (users : Users) (al : AllowList) (u : Identity) (dev : DeviceInfo)
    (now : Int) : AuthState :=
  let normalizedEmail := normalizedEmailOf u
  match jmapGet users u.uid with
  | some rec =>
      { user := some u, userRole := rec.role, authError := none, signedOut := false,
        users := updateUserActivity users u dev now rec.role rec.loginCount }
  | none =>
    match getApprovedUserByEmail al (jsOrS normalizedEmail u.email) with
    | none =>
        { user := none, userRole := none,
          authError := some (if truthyS normalizedEmail
            then unauthorizedMsgFor (normalizedEmail.getD "")
            else genericUnauthorizedMsg),
          signedOut := true, users := users }
    | some au =>
        let role := au.2.role
        let createdRec : UserRecord :=
          { emptyUserRecord with
              email := jsOrS normalizedEmail u.email,
              name := jsOrS u.displayName (jsOrS au.2.name
                (jsOrS au.2.displayName (jsOrS normalizedEmail u.email))),
              role := role,
              createdAt := JsTime.obj (some now) }
        let users1 := jmapSet users u.uid createdRec
        { user := some u, userRole := role, authError := none, signedOut := false,
          users := updateUserActivity users1 u dev now role none }

/-! ## UserManagement: data model -/

/-- A snapshot document of the `approvedUsers` collection as consumed by the
roster view (`{ id: doc.id, ...doc.data() }`). -/
structure ApprovedDoc where
  id : String
  email : Option String
  role : Option String
  name : Option String
  displayName : Option String
  createdAt : JsTime
deriving DecidableEq

/-- A snapshot document of the `users` collection as consumed by the roster
view. -/
structure ActiveDoc where
  id : String
  email : Option String
  role : Option String
  name : Option String
  displayName : Option String
  createdAt : JsTime
  lastActive : JsTime
  lastLogin : JsTime
deriving DecidableEq

/-- One row of the merged roster view. -/
structure MergedUserView where
  email : String
  approved : Bool
  active : Bool
  role : Option String
  name : String
  createdAt : JsTime
  lastActive : JsTime
  userIds : List String
deriving DecidableEq

/-- `normalizeEmail` from the user-management component:
`String(value || '').trim().toLowerCase()`. -/
def normalizeEmail (v : Option String) : String := jsToLower (jsTrim (v.getD ""))

/-- The view seeded from an allow-list entry (step 1 of `mergedUsers`). -/
def seedView (a : ApprovedDoc) (e : String) : MergedUserView :=
  { email := e, approved := true, active := false, role := a.role,
    name := jsFieldOr a.displayName (jsFieldOr a.name ""),
    createdAt := a.createdAt, lastActive := .null, userIds := [] }

/-- The default view for an email seen only in the activity collection. -/
def freshView (e : String) : MergedUserView :=
  { email := e, approved := false, active := false, role := none, name := "",
    createdAt := .null, lastActive := .null, userIds := [] }

/-- Merging one activity record into a view (the body of the second loop of
`mergedUsers`). -/
def stepView (v : MergedUserView) (r : ActiveDoc) : MergedUserView :=
  let lastActive := jsOrT r.lastActive (jsOrT r.lastLogin .null)
  { v with
      active := true,
      role := jsOrS v.role (jsOrS r.role (some "staff")),
      name := if v.name = "" then jsFieldOr r.displayName (jsFieldOr r.name "") else v.name,
      createdAt := jsOrT v.createdAt (jsOrT r.createdAt .null),
      lastActive := pickMostRecent v.lastActive lastActive,
      userIds := if v.userIds.contains r.id then v.userIds else v.userIds ++ [r.id] }

/-- The `byEmail` map under construction. -/
abbrev ViewMap := List (String × MergedUserView)

/-- Processing one allow-list entry in the first loop of `mergedUsers`. -/
def seedStep (m : ViewMap) (a : ApprovedDoc) : ViewMap :=
  let e := normalizeEmail a.email
  if e = "" then m else jmapSet m e (seedView a e)

/-- Processing one activity record in the second loop of `mergedUsers`. -/
def actStep (m : ViewMap) (r : ActiveDoc) : ViewMap :=
  let e := normalizeEmail r.email
  if e = "" then m
  else
    let existing := (jmapGet m e).getD (freshView e)
    jmapSet m e (stepView existing r)

/-- The fully built `byEmail` map. -/
def mergeMap (approvedUsers : List ApprovedDoc) (activeUsers : List ActiveDoc) : ViewMap :=
  activeUsers.foldl actStep (approvedUsers.foldl seedStep [])

/-- `a.role === 'admin'`. -/
def roleIsAdmin (r : Option String) : Bool := r == some "admin"

/-- The sort comparator passed to `Array.prototype.sort`. -/
def userCompare (a b : MergedUserView) : Int :=
  if roleIsAdmin a.role = true ∧ roleIsAdmin b.role = false then -1
  else if roleIsAdmin a.role = false ∧ roleIsAdmin b.role = true then 1
  else localeCompare a.email b.email

/-- The non-strict order induced by the comparator (`userCompare a b <= 0`). -/
def viewR (a b : MergedUserView) : Prop := userCompare a b ≤ 0

instance : DecidableRel viewR := fun _ _ => Int.decLe _ _

/-- `mergedUsers` from the user-management component: seed from the allow-list,
fold in the activity records, then sort the values by the comparator
(`Array.prototype.sort` modelled as a comparison sort by `viewR`). -/
def mergedUsers (approvedUsers : List ApprovedDoc) (activeUsers : List ActiveDoc) :
    List MergedUserView :=
  List.insertionSort viewR ((mergeMap approvedUsers activeUsers).map (fun p => p.2))

/-! ## UserManagement: removal -/

/-- The settled outcome of one awaited deletion promise. -/
inductive PromiseOutcome where
  | ok : PromiseOutcome
  | failed : String → PromiseOutcome
deriving DecidableEq

/-- The result object returned by `removeUserCompletely`. -/
structure RemoveResult where
  success : Bool
  message : Option String
  error : Option String
deriving DecidableEq

/-- `userIds.filter(Boolean)` after the array normalization. -/
def filterTruthyIds (userIds : List (Option String)) : List String :=
  userIds.filterMap (fun x =>
    match x with
    | some s => if s = "" then none else some s
    | none => none)

/-- `err.message || 'Failed to remove user completely'`. -/
def removalErrMsg (m : String) : String :=
  if m = "" then "Failed to remove user completely" else m

/-- Modelled from the spec: `removeApprovedUser` lives in
`src/utils/userManagement.js`, which is not among the sources; per the spec it
deletes the allow-list entry for the email and, like any deletion step, may
fail.  Its settled outcome — and the outcome of each `deleteDoc` on the
activity collection — is therefore passed in as a parameter.
`removeUserCompletely` awaits the allow-list deletion first, then starts every
activity-record deletion via `Promise.all(ids.map(...))`; the second component
of the result is the list of activity-record ids whose deletion was actually
attempted. -/
def removeUserCompletely (approvedOutcome : PromiseOutcome)
    (deleteOutcome : String → PromiseOutcome)
    (userIds : List (Option String)) : RemoveResult × List String :=
  let ids := filterTruthyIds userIds
  match approvedOutcome with
  | .failed m =>
      ({ success := false, message := none, error := some (removalErrMsg m) }, [])
  | .ok =>
      match ids.find? (fun i => deleteOutcome i != PromiseOutcome.ok) with
      | some i =>
          ({ success := false, message := none,
             error := some (match deleteOutcome i with
               | .failed m => removalErrMsg m
               | .ok => removalErrMsg "") }, ids)
      | none =>
          ({ success := true, message := some "User removed from system completely",
             error := none }, ids)

/-! ## UserManagement: add-user form -/

/-- The `newUser` form state. -/
structure NewUserForm where
  email : String
  name : String
  role : String
deriving DecidableEq

/-- The `userData` object passed to `addApprovedUser`. -/
structure NewApprovedData where
  email : String
  name : String
  displayName : String
  role : String
  createdAt : Int
deriving DecidableEq

/-- What `handleAddUser` does before any backend call: set a validation error,
or hand a user-data object to `addApprovedUser`. -/
inductive AddUserAction where
  | validationError : String → AddUserAction
  | addUser : NewApprovedData → AddUserAction
deriving DecidableEq

/-- `handleAddUser` from the user-management component (its synchronous
validation prefix and the `userData` it builds). -/
def handleAddUser (f : NewUserForm) (now : Int) : AddUserAction :=
  let normalizedEmail := jsToLower (jsTrim f.email)
  if normalizedEmail = "" ∨ jsEndsWith normalizedEmail "@gmail.com" = false then
    .validationError "Only Gmail addresses are allowed"
  else if jsTrim f.name = "" then
    .validationError "Name is required"
  else
    .addUser { email := normalizedEmail, name := jsTrim f.name,
               displayName := jsTrim f.name, role := f.role, createdAt := now }

/-! ## Store lemmas -/

theorem jmapGet_map_update {α : Type} (m : List (String × α)) (k : String) (v : α)
    (h : jmapHas m k = true) :
    jmapGet (m.map (fun p => if p.1 = k then (k, v) else p)) k = some v := by
  induction m with
  | nil => simp [jmapHas] at h
  | cons p t ih =>
    by_cases hp : p.1 = k
    · simp [List.map_cons, hp, jmapGet]
    · have ht : jmapHas t k = true := by
        simpa [jmapHas, hp] using h
      simpa [List.map_cons, hp, jmapGet] using ih ht

theorem jmapGet_append_self {α : Type} (m : List (String × α)) (k : String) (v : α)
    (h : jmapHas m k = false) :
    jmapGet (m ++ [(k, v)]) k = some v := by
  induction m with
  | nil => simp [jmapGet]
  | cons p t ih =>
    have hp : ¬ p.1 = k := by
      intro hpk
      simp [jmapHas, hpk] at h
    have ht : jmapHas t k = false := by
      simpa [jmapHas, hp] using h
    simpa [List.cons_append, jmapGet, hp] using ih ht

theorem jmapGet_jmapSet_self {α : Type} (m : List (String × α)) (k : String) (v : α) :
    jmapGet (jmapSet m k v) k = some v := by
  unfold jmapSet
  by_cases h : jmapHas m k = true
  · rw [if_pos h]; exact jmapGet_map_update m k v h
  · rw [if_neg h]
    exact jmapGet_append_self m k v (by simpa using h)

/-! ## Claim theorems: AccessResolver -/

/-! ## Normalization stability (trim and lower-casing) -/

theorem charToNat_ofNat {m : Nat} (h : m.isValidChar) : (Char.ofNat m).toNat = m := by
  unfold Char.ofNat
  rw [dif_pos h]
  rfl

theorem charToLower_toNat_of_upper {c : Char} (h : 65 ≤ c.toNat ∧ c.toNat ≤ 90) :
    (Char.toLower c).toNat = c.toNat + 32 := by
  unfold Char.toLower
  rw [if_pos h]
  exact charToNat_ofNat (by unfold Nat.isValidChar; omega)

theorem charToLower_of_not_upper {c : Char} (h : ¬ (65 ≤ c.toNat ∧ c.toNat ≤ 90)) :
    Char.toLower c = c := by
  unfold Char.toLower
  rw [if_neg h]

theorem charToLower_idem (c : Char) : Char.toLower (Char.toLower c) = Char.toLower c := by
  by_cases h : 65 ≤ c.toNat ∧ c.toNat ≤ 90
  · apply charToLower_of_not_upper
    rw [charToLower_toNat_of_upper h]
    omega
  · rw [charToLower_of_not_upper h, charToLower_of_not_upper h]

theorem char_not_ws_of_toNat {c : Char}
    (h : c.toNat ≠ 32 ∧ c.toNat ≠ 9 ∧ c.toNat ≠ 13 ∧ c.toNat ≠ 10) :
    c.isWhitespace = false := by
  unfold Char.isWhitespace
  have h1 : c ≠ ' ' := fun hc => h.1 ((congrArg Char.toNat hc).trans (by decide))
  have h2 : c ≠ '\t' := fun hc => h.2.1 ((congrArg Char.toNat hc).trans (by decide))
  have h3 : c ≠ '\x0d' := fun hc => h.2.2.1 ((congrArg Char.toNat hc).trans (by decide))
  have h4 : c ≠ '\n' := fun hc => h.2.2.2 ((congrArg Char.toNat hc).trans (by decide))
  simp [h1, h2, h3, h4]

theorem charToLower_isWhitespace (c : Char) :
    (Char.toLower c).isWhitespace = c.isWhitespace := by
  by_cases h : 65 ≤ c.toNat ∧ c.toNat ≤ 90
  · have hl : (Char.toLower c).toNat = c.toNat + 32 := charToLower_toNat_of_upper h
    have hws1 : (Char.toLower c).isWhitespace = false :=
      char_not_ws_of_toNat ⟨by rw [hl]; omega, by rw [hl]; omega,
        by rw [hl]; omega, by rw [hl]; omega⟩
    have hws2 : c.isWhitespace = false :=
      char_not_ws_of_toNat ⟨by omega, by omega, by omega, by omega⟩
    rw [hws1, hws2]
  · rw [charToLower_of_not_upper h]

theorem dropWhile_idem {α : Type} (p : α → Bool) (l : List α) :
    (l.dropWhile p).dropWhile p = l.dropWhile p := by
  induction l with
  | nil => rfl
  | cons a t ih =>
    by_cases h : p a = true
    · rw [List.dropWhile_cons, if_pos h]
      exact ih
    · rw [List.dropWhile_cons, if_neg h, List.dropWhile_cons, if_neg h]

theorem prefix_dropWhile_eq_self {α : Type} {p : α → Bool} {t u : List α}
    (hpre : t <+: u) (hu : u.dropWhile p = u) : t.dropWhile p = t := by
  obtain ⟨s, rfl⟩ := hpre
  cases t with
  | nil => rfl
  | cons a t' =>
    rw [List.cons_append, List.dropWhile_cons] at hu
    by_cases h : p a = true
    · rw [if_pos h] at hu
      have hle : ((t' ++ s).dropWhile p).length ≤ (t' ++ s).length :=
        (List.dropWhile_suffix p).length_le
      have hlen : ((t' ++ s).dropWhile p).length = (t' ++ s).length + 1 := by
        rw [hu]
        simp
      omega
    · rw [List.dropWhile_cons, if_neg h]

theorem trimCharList_idem (l : List Char) :
    trimCharList (trimCharList l) = trimCharList l := by
  unfold trimCharList
  have hu : (l.dropWhile Char.isWhitespace).dropWhile Char.isWhitespace =
      l.dropWhile Char.isWhitespace := dropWhile_idem _ _
  have hv : ((l.dropWhile Char.isWhitespace).reverse.dropWhile
        Char.isWhitespace).dropWhile Char.isWhitespace =
      (l.dropWhile Char.isWhitespace).reverse.dropWhile Char.isWhitespace :=
    dropWhile_idem _ _
  have hpre : ((l.dropWhile Char.isWhitespace).reverse.dropWhile
        Char.isWhitespace).reverse <+: l.dropWhile Char.isWhitespace := by
    have h1 := List.reverse_prefix.mpr
      (List.dropWhile_suffix (l := (l.dropWhile Char.isWhitespace).reverse)
        Char.isWhitespace)
    rwa [List.reverse_reverse] at h1
  have ht : (((l.dropWhile Char.isWhitespace).reverse.dropWhile
        Char.isWhitespace).reverse).dropWhile Char.isWhitespace =
      ((l.dropWhile Char.isWhitespace).reverse.dropWhile Char.isWhitespace).reverse :=
    prefix_dropWhile_eq_self hpre hu
  rw [ht, List.reverse_reverse, hv]

theorem dropWhile_congr_pred {α : Type} {p q : α → Bool} (h : ∀ a, p a = q a)
    (l : List α) : l.dropWhile p = l.dropWhile q := by
  induction l with
  | nil => rfl
  | cons a t ih =>
    rw [List.dropWhile_cons, List.dropWhile_cons, h a, ih]

theorem trimCharList_map_toLower (l : List Char) :
    trimCharList (l.map Char.toLower) = (trimCharList l).map Char.toLower := by
  have hstep : ∀ x : List Char, (x.map Char.toLower).dropWhile Char.isWhitespace =
      (x.dropWhile Char.isWhitespace).map Char.toLower := by
    intro x
    rw [List.dropWhile_map]
    exact congrArg (List.map Char.toLower)
      (dropWhile_congr_pred (fun a => charToLower_isWhitespace a) x)
  unfold trimCharList
  rw [hstep l, ← List.map_reverse, hstep _, ← List.map_reverse]

theorem jsToLower_idem (s : String) : jsToLower (jsToLower s) = jsToLower s := by
  show String.mk ((s.data.map Char.toLower).map Char.toLower) =
    String.mk (s.data.map Char.toLower)
  refine congrArg String.mk ?_
  rw [List.map_map]
  exact List.map_congr_left (fun c _ => charToLower_idem c)

theorem jsTrim_idem (s : String) : jsTrim (jsTrim s) = jsTrim s :=
  congrArg String.mk (trimCharList_idem s.data)

theorem jsTrim_jsToLower (s : String) : jsTrim (jsToLower s) = jsToLower (jsTrim s) :=
  congrArg String.mk (trimCharList_map_toLower s.data)

/-- Normalized emails are trim-stable. -/
theorem normalized_jsTrim (e : String) :
    jsTrim (jsToLower (jsTrim e)) = jsToLower (jsTrim e) := by
  rw [jsTrim_jsToLower, jsTrim_idem]

/-- Normalized emails are lower-case-stable. -/
theorem normalized_jsToLower (e : String) :
    jsToLower (jsToLower (jsTrim e)) = jsToLower (jsTrim e) := jsToLower_idem _

/-- At an already-normalized argument, the four-strategy chain of
`getApprovedUserByEmail` collapses to the two normalized strategies: the raw
and normalized keys coincide, so the raw-email branches are skipped. -/
theorem getApproved_at_normalized (al : AllowList) (e : String)
    (hne : jsToLower (jsTrim e) ≠ "") :
    getApprovedUserByEmail al (some (jsToLower (jsTrim e))) =
      orO (findApprovedByKey al (jsToLower (jsTrim e)))
        (findApprovedByEmailField al (jsToLower (jsTrim e))) := by
  simp only [getApprovedUserByEmail]
  rw [if_neg hne, normalized_jsTrim e, normalized_jsToLower e,
    if_neg (not_not_intro rfl), if_neg (not_not_intro rfl)]
  cases findApprovedByKey al (jsToLower (jsTrim e)) <;>
    cases findApprovedByEmailField al (jsToLower (jsTrim e)) <;> simp [orO]

/-- Claim C1 (amended): `getApprovedUserByEmail` does implement the ordered
four-strategy fallback chain — (a) document keyed by the normalized email,
(b) document keyed by the raw (trimmed, not lower-cased) email, (c) document
whose `email` field equals the normalized email, (d) document whose `email`
field equals the raw email, first match wins — for whatever argument it
receives; but `authorize` hands it the pre-normalized email
(`normalizedEmail || authUser.email`), so for a signed-in identity with no
activity record whose email normalizes to a non-empty string, the search runs
on the normalized email only and collapses to (a) then (c): the identity's
raw email never participates, and `authorize` authorizes exactly when this
collapsed chain finds an entry, with that entry's role. -/
theorem authorize_normalized_lookup (users : Users) (al : AllowList) (u : Identity)
    (dev : DeviceInfo) (now : Int) (n : String)
    (h0 : jmapGet users u.uid = none)
    (hn : normalizedEmailOf u = some n) (hne : n ≠ "") :
    (∀ e : String, e ≠ "" →
      getApprovedUserByEmail al (some e) =
        orO (findApprovedByKey al (jsToLower (jsTrim e)))
          (orO (findApprovedByKey al (jsTrim e))
            (orO (findApprovedByEmailField al (jsToLower (jsTrim e)))
              (findApprovedByEmailField al (jsTrim e))))) ∧
    jsOrS (normalizedEmailOf u) u.email = some n ∧
    getApprovedUserByEmail al (some n) =
      orO (findApprovedByKey al n) (findApprovedByEmailField al n) ∧
    (getApprovedUserByEmail al (some n) = none →
      (authorize users al u dev now).user = none ∧
      (authorize users al u dev now).signedOut = true) ∧
    (∀ au, getApprovedUserByEmail al (some n) = some au →
      (authorize users al u dev now).user = some u ∧
      (authorize users al u dev now).userRole = au.2.role ∧
      (authorize users al u dev now).signedOut = false) := by
  have htr : truthyS u.email = true ∧ n = jsToLower (jsTrim (u.email.getD "")) := by
    unfold normalizedEmailOf at hn
    by_cases ht : truthyS u.email = true
    · rw [if_pos ht] at hn
      exact ⟨ht, (Option.some.inj hn).symm⟩
    · rw [if_neg ht] at hn
      cases hn
  have harg : jsOrS (normalizedEmailOf u) u.email = some n := by
    rw [hn]
    simp [jsOrS, truthyS, hne]
  refine ⟨?_, harg, ?_, ?_, ?_⟩
  · intro e he
    simp only [getApprovedUserByEmail]
    rw [if_neg he]
    by_cases hr : jsTrim e = jsToLower (jsTrim e)
    · rw [if_neg (not_not_intro hr), if_neg (not_not_intro hr), ← hr]
      cases findApprovedByKey al (jsTrim e) <;>
        cases findApprovedByEmailField al (jsTrim e) <;> simp [orO]
    · rw [if_pos hr, if_pos hr]
  · rw [htr.2] at hne ⊢
    exact getApproved_at_normalized al _ hne
  · intro h1
    rw [← harg] at h1
    simp [authorize, h0, h1]
  · intro au h1
    rw [← harg] at h1
    simp [authorize, h0, h1]

/-- Claim C2: when the signed-in uid already has an activity record,
`authorize` re-authenticates from the stored record: the resulting role is the
stored role, the outcome is authorized, and the whole result is independent of
the allow-list — so a revoked or role-changed allow-list entry does not affect
a previously activated record. -/
theorem reauth_role_from_stored_record (users : Users) (al al' : AllowList) (u : Identity)
    (dev : DeviceInfo) (now : Int) (r0 : UserRecord)
    (h : jmapGet users u.uid = some r0) :
    (authorize users al u dev now).userRole = r0.role ∧
    (authorize users al u dev now).user = some u ∧
    (authorize users al u dev now).signedOut = false ∧
    authorize users al u dev now = authorize users al' u dev now := by
  refine ⟨?_, ?_, ?_, ?_⟩ <;> simp [authorize, h]

/-- Claim C5: an identity (with no activity record) whose email the four-way
allow-list lookup cannot match is rejected: sign-out is forced, no user or role
is set, the store is untouched, and the contact-administrator message carries
the rejected (normalized) email whenever the email is known (normalizes to a
non-empty string); otherwise the generic message is shown. -/
theorem unauthorized_forces_signout (users : Users) (al : AllowList) (u : Identity)
    (dev : DeviceInfo) (now : Int)
    (h0 : jmapGet users u.uid = none)
    (h1 : getApprovedUserByEmail al (jsOrS (normalizedEmailOf u) u.email) = none) :
    (authorize users al u dev now).signedOut = true ∧
    (authorize users al u dev now).user = none ∧
    (authorize users al u dev now).userRole = none ∧
    (authorize users al u dev now).users = users ∧
    (∀ ne, normalizedEmailOf u = some ne → ne ≠ "" →
      (authorize users al u dev now).authError =
        some ("Unauthorized user (" ++ ne ++ "). Please contact the administrator for access.")) ∧
    (truthyS (normalizedEmailOf u) = false →
      (authorize users al u dev now).authError = some genericUnauthorizedMsg) := by
  have herr : (authorize users al u dev now).authError =
      some (if truthyS (normalizedEmailOf u) = true
        then unauthorizedMsgFor ((normalizedEmailOf u).getD "")
        else genericUnauthorizedMsg) := by
    simp [authorize, h0, h1]
  refine ⟨?_, ?_, ?_, ?_, ?_, ?_⟩
  · simp [authorize, h0, h1]
  · simp [authorize, h0, h1]
  · simp [authorize, h0, h1]
  · simp [authorize, h0, h1]
  · intro ne hne hne'
    rw [herr, hne]
    simp [truthyS, hne', unauthorizedMsgFor]
  · intro ht
    rw [herr, ht]
    simp

/-- Claim C10: on every successful authorization — re-authentication or first
sign-in — the activity update writes the provider's raw email into the stored
record, so afterwards the stored email equals the provider-supplied email
exactly (`updateUserActivity` itself always does so, even when the record was
just created with the normalized email). -/
theorem activity_update_writes_raw_email (users : Users) (al : AllowList) (u : Identity)
    (dev : DeviceInfo) (now : Int)
    (h : (authorize users al u dev now).user = some u) :
    (∃ r0, jmapGet (authorize users al u dev now).users u.uid = some r0 ∧
      r0.email = u.email) ∧
    (∀ (us : Users) (role : Option String) (lc : Option Int),
      ∃ r0, jmapGet (updateUserActivity us u dev now role lc) u.uid = some r0 ∧
        r0.email = u.email) :=
  have base : ∀ (us : Users) (role : Option String) (lc : Option Int),
      ∃ r0, jmapGet (updateUserActivity us u dev now role lc) u.uid = some r0 ∧
        r0.email = u.email := by
    intro us role lc
    exact ⟨_, jmapGet_jmapSet_self _ _ _, rfl⟩
  by
  refine ⟨?_, base⟩
  by_cases hm : ∃ r1, jmapGet users u.uid = some r1
  · obtain ⟨r1, hr1⟩ := hm
    have : (authorize users al u dev now).users =
        updateUserActivity users u dev now r1.role r1.loginCount := by
      simp [authorize, hr1]
    rw [this]; exact base _ _ _
  · have hnone : jmapGet users u.uid = none := by
      cases hj : jmapGet users u.uid with
      | none => rfl
      | some r1 => exact absurd ⟨r1, hj⟩ hm
    cases hl : getApprovedUserByEmail al (jsOrS (normalizedEmailOf u) u.email) with
    | none => simp [authorize, hnone, hl] at h
    | some au =>
      have : (authorize users al u dev now).users =
          updateUserActivity
            (jmapSet users u.uid
              { emptyUserRecord with
                  email := jsOrS (normalizedEmailOf u) u.email,
                  name := jsOrS u.displayName (jsOrS au.2.name
                    (jsOrS au.2.displayName (jsOrS (normalizedEmailOf u) u.email))),
                  role := au.2.role,
                  createdAt := JsTime.obj (some now) })
            u dev now au.2.role none := by
        simp [authorize, hnone, hl]
      rw [this]; exact base _ _ _

/-- Shared concrete fixture: device metadata. -/
def dev0 : DeviceInfo := ⟨"agent", "mac", "en"⟩

/-- Shared concrete fixture: an allow-list entry for `a@b.com` with role
`admin`. -/
def annEntry : ApprovedUser :=
  { email := some "a@b.com", role := some "admin", name := some "Ann", displayName := none }

/-- Concrete fixture for the C1 counterexample: an entry stored under the raw
(non-normalized) email, with the raw email in its `email` field too. -/
def rawAnnEntry : ApprovedUser :=
  { email := some "A@B.com", role := some "admin", name := some "Ann", displayName := none }

/-- Counterexample for C1: an allow-list entry keyed by the identity's raw
email `"A@B.com"` (whose `email` field also equals the raw email) is not found
when that identity signs in — `authorize` normalizes before the lookup, so the
raw-email strategies never see the identity's raw email and the identity is
signed out; yet `getApprovedUserByEmail`, called directly on the raw email,
would find that entry via its raw-key strategy. -/
theorem raw_keyed_entry_not_found :
    (authorize [] [("A@B.com", rawAnnEntry)]
      ⟨"u1", some "A@B.com", none, none⟩ ⟨"ua", "mac", "en"⟩ 0).user = none ∧
    (authorize [] [("A@B.com", rawAnnEntry)]
      ⟨"u1", some "A@B.com", none, none⟩ ⟨"ua", "mac", "en"⟩ 0).signedOut = true ∧
    getApprovedUserByEmail [("A@B.com", rawAnnEntry)] (some "A@B.com") =
      some ("A@B.com", rawAnnEntry) := by
  decide

/-- Witness for the amended C1 at a concrete input: the chain collapses to the
two normalized strategies at `"a@b.com"`, and the identity whose email
normalizes to the listed key authorizes with the entry's role. -/
theorem authorize_normalized_lookup_witness :
    getApprovedUserByEmail [("a@b.com", annEntry)] (some "a@b.com") =
      orO (findApprovedByKey [("a@b.com", annEntry)] "a@b.com")
        (findApprovedByEmailField [("a@b.com", annEntry)] "a@b.com") ∧
    (authorize [] [("a@b.com", annEntry)]
      ⟨"u1", some " A@B.com ", none, none⟩ dev0 0).userRole = some "admin" :=
  ⟨(authorize_normalized_lookup [] [("a@b.com", annEntry)]
      ⟨"u1", some " A@B.com ", none, none⟩ dev0 0 "a@b.com"
      rfl (by decide) (by decide)).2.2.1,
   ((authorize_normalized_lookup [] [("a@b.com", annEntry)]
      ⟨"u1", some " A@B.com ", none, none⟩ dev0 0 "a@b.com"
      rfl (by decide) (by decide)).2.2.2.2
    ("a@b.com", annEntry) (by decide)).2.1⟩

/-- Witness for C2 at a concrete input: a stored record with role `staff`
wins over an allow-list that now says `admin`, and the result is identical
to running against an empty allow-list. -/
theorem reauth_role_from_stored_record_witness :
    (authorize [("u1", { emptyUserRecord with role := some "staff" })] [] 
      ⟨"u1", some "a@b.com", none, none⟩ dev0 0).userRole = some "staff" ∧
    authorize [("u1", { emptyUserRecord with role := some "staff" })] []
      ⟨"u1", some "a@b.com", none, none⟩ dev0 0 =
    authorize [("u1", { emptyUserRecord with role := some "staff" })] [("a@b.com", annEntry)]
      ⟨"u1", some "a@b.com", none, none⟩ dev0 0 :=
  ⟨(reauth_role_from_stored_record
      [("u1", { emptyUserRecord with role := some "staff" })] [] [("a@b.com", annEntry)]
      ⟨"u1", some "a@b.com", none, none⟩ dev0 0
      { emptyUserRecord with role := some "staff" } (by decide)).1,
   (reauth_role_from_stored_record
      [("u1", { emptyUserRecord with role := some "staff" })] [] [("a@b.com", annEntry)]
      ⟨"u1", some "a@b.com", none, none⟩ dev0 0
      { emptyUserRecord with role := some "staff" } (by decide)).2.2.2⟩

/-- Witness for C5 at a concrete input: an unknown email is signed out and the
message carries the normalized email. -/
theorem unauthorized_forces_signout_witness :
    (authorize [] [] ⟨"u3", some " Bo@B.com ", none, none⟩ dev0 0).signedOut = true ∧
    (authorize [] [] ⟨"u3", some " Bo@B.com ", none, none⟩ dev0 0).authError =
      some ("Unauthorized user (" ++ "bo@b.com" ++ "). Please contact the administrator for access.") :=
  ⟨(unauthorized_forces_signout [] [] ⟨"u3", some " Bo@B.com ", none, none⟩ dev0 0
      (by decide) (by decide)).1,
   (unauthorized_forces_signout [] [] ⟨"u3", some " Bo@B.com ", none, none⟩ dev0 0
      (by decide) (by decide)).2.2.2.2.1 "bo@b.com" (by decide) (by decide)⟩

/-- Witness for C10 at a concrete input: after a first sign-in with the raw
email `" A@B.com "`, the stored activity record carries exactly that raw
email. -/
theorem activity_update_writes_raw_email_witness :
    ∃ r0, jmapGet (authorize [] [("a@b.com", annEntry)]
        ⟨"u1", some " A@B.com ", some "Ann", none⟩ dev0 0).users "u1" = some r0 ∧
      r0.email = some " A@B.com " :=
  (activity_update_writes_raw_email [] [("a@b.com", annEntry)]
    ⟨"u1", some " A@B.com ", some "Ann", none⟩ dev0 0 (by decide)).1

/-- Counterexample for C6: an identity with an empty email (and no activity
record) is not rejected with a distinct invalid-input outcome; it gets exactly
the `Unauthorized` handling — forced sign-out with the generic
contact-administrator message — and its result state is identical to that of a
whitespace-only (known but unlisted) email. -/
theorem empty_email_gets_unauthorized_outcome :
    (authorize [] [] ⟨"u1", some "", none, none⟩ ⟨"ua", "mac", "en"⟩ 0).signedOut = true ∧
    (authorize [] [] ⟨"u1", some "", none, none⟩ ⟨"ua", "mac", "en"⟩ 0).authError =
      some "Unauthorized user. Please contact the administrator for access." ∧
    authorize [] [] ⟨"u1", some "", none, none⟩ ⟨"ua", "mac", "en"⟩ 0 =
      authorize [] [] ⟨"u1", some "   ", none, none⟩ ⟨"ua", "mac", "en"⟩ 0 := by
  decide

/-- Claim C6 (amended): an identity with an empty or null email and no activity
record under its uid fails with the `Unauthorized` handling — forced sign-out,
no user or role set, the generic contact-administrator message (no email
included), and an untouched store; there is no distinct invalid-input
outcome in the code. -/
theorem empty_email_unauthorized (users : Users) (al : AllowList) (u : Identity)
    (dev : DeviceInfo) (now : Int)
    (he : u.email = none ∨ u.email = some "")
    (h0 : jmapGet users u.uid = none) :
    (authorize users al u dev now).signedOut = true ∧
    (authorize users al u dev now).user = none ∧
    (authorize users al u dev now).userRole = none ∧
    (authorize users al u dev now).authError = some genericUnauthorizedMsg ∧
    (authorize users al u dev now).users = users := by
  have hn : normalizedEmailOf u = none := by
    rcases he with h | h <;> simp [normalizedEmailOf, truthyS, h]
  have hfalse : truthyS (normalizedEmailOf u) = false := by rw [hn]; rfl
  have hl : getApprovedUserByEmail al (jsOrS (normalizedEmailOf u) u.email) = none := by
    rw [hn]
    rcases he with h | h <;> simp [jsOrS, truthyS, h, getApprovedUserByEmail]
  refine ⟨?_, ?_, ?_, ?_, ?_⟩ <;> simp [authorize, h0, hl, hfalse]

/-- Witness for the amended C6 at a concrete input (null email). -/
theorem empty_email_unauthorized_witness :
    (authorize [] [] ⟨"u2", none, none, none⟩ dev0 5).signedOut = true ∧
    (authorize [] [] ⟨"u2", none, none, none⟩ dev0 5).authError =
      some genericUnauthorizedMsg :=
  ⟨(empty_email_unauthorized [] [] ⟨"u2", none, none, none⟩ dev0 5 (Or.inl rfl) (by decide)).1,
   (empty_email_unauthorized [] [] ⟨"u2", none, none, none⟩ dev0 5 (Or.inl rfl)
      (by decide)).2.2.2.1⟩

/-! ## Claim theorems: removal -/

/-- Counterexample for C4: when the allow-list deletion rejects, none of the
activity-record deletions is attempted (even though `u9` was supplied), so the
allow-list deletion and the activity deletions are not independent; by
contrast, a failing activity deletion does not prevent the other activity
deletions from being attempted. -/
theorem removal_allowlist_failure_blocks_activity :
    (removeUserCompletely (PromiseOutcome.failed "backend error")
      (fun _ => PromiseOutcome.ok) [some "u9"]).2 = [] ∧
    filterTruthyIds [some "u9"] = ["u9"] ∧
    (removeUserCompletely PromiseOutcome.ok
      (fun _ => PromiseOutcome.failed "backend error") [some "u9", some "u10"]).2 =
      ["u9", "u10"] := by
  decide

/-- Claim C4 (amended): the activity-record deletions are attempted
independently of each other — once the allow-list deletion completes without
rejecting, every supplied (truthy) id's deletion is attempted regardless of
individual failures, and the attempted set does not depend on the deletion
outcomes — but they are only started after the allow-list deletion completes,
and if the allow-list deletion rejects, no activity-record deletion is
attempted. -/
theorem removal_attempt_structure (ao : PromiseOutcome) (f g : String → PromiseOutcome)
    (userIds : List (Option String)) :
    (ao = PromiseOutcome.ok →
      (removeUserCompletely ao f userIds).2 = filterTruthyIds userIds) ∧
    (removeUserCompletely ao f userIds).2 = (removeUserCompletely ao g userIds).2 ∧
    (∀ m, ao = PromiseOutcome.failed m → (removeUserCompletely ao f userIds).2 = []) := by
  have hsnd : ∀ h : String → PromiseOutcome,
      (removeUserCompletely PromiseOutcome.ok h userIds).2 = filterTruthyIds userIds := by
    intro h
    simp only [removeUserCompletely]
    cases hf : (filterTruthyIds userIds).find? (fun i => h i != PromiseOutcome.ok) <;>
      simp [hf]
  cases ao with
  | ok =>
    refine ⟨fun _ => hsnd f, ?_, ?_⟩
    · rw [hsnd f, hsnd g]
    · intro m hm
      cases hm
  | failed m =>
    refine ⟨?_, rfl, fun m' _ => rfl⟩
    intro h
    cases h

/-- Witness for the amended C4 at a concrete input. -/
theorem removal_attempt_structure_witness :
    (removeUserCompletely PromiseOutcome.ok (fun _ => PromiseOutcome.failed "x")
      [some "u9", none, some "u10"]).2 = filterTruthyIds [some "u9", none, some "u10"] :=
  (removal_attempt_structure PromiseOutcome.ok (fun _ => PromiseOutcome.failed "x")
    (fun _ => PromiseOutcome.ok) [some "u9", none, some "u10"]).1 rfl

/-! ## Claim theorems: add-user form -/

/-- Claim C9: `handleAddUser` rejects (with a validation error and no
`addApprovedUser` call) any submission whose trimmed, lower-cased email does
not end in `@gmail.com`, or whose name is empty after trimming; and whenever
it does hand data to `addApprovedUser`, that data carries the normalized Gmail
address and a non-empty trimmed name. -/
theorem addUser_gmail_validation (f : NewUserForm) (now : Int) :
    (jsEndsWith (jsToLower (jsTrim f.email)) "@gmail.com" = false →
      handleAddUser f now = .validationError "Only Gmail addresses are allowed") ∧
    (jsEndsWith (jsToLower (jsTrim f.email)) "@gmail.com" = true → jsTrim f.name = "" →
      handleAddUser f now = .validationError "Name is required") ∧
    (∀ d, handleAddUser f now = .addUser d →
      d.email = jsToLower (jsTrim f.email) ∧
      jsEndsWith d.email "@gmail.com" = true ∧
      d.name = jsTrim f.name ∧ d.name ≠ "") := by
  refine ⟨?_, ?_, ?_⟩
  · intro h
    simp only [handleAddUser]
    rw [if_pos (Or.inr h)]
  · intro h hn
    have hne : ¬ (jsToLower (jsTrim f.email) = "" ∨
        jsEndsWith (jsToLower (jsTrim f.email)) "@gmail.com" = false) := by
      rintro (h1 | h2)
      · rw [h1] at h
        exact absurd h (by decide)
      · rw [h] at h2
        cases h2
    simp only [handleAddUser]
    rw [if_neg hne, if_pos hn]
  · intro d hd
    simp only [handleAddUser] at hd
    by_cases h1 : jsToLower (jsTrim f.email) = "" ∨
        jsEndsWith (jsToLower (jsTrim f.email)) "@gmail.com" = false
    · rw [if_pos h1] at hd; cases hd
    · rw [if_neg h1] at hd
      by_cases h2 : jsTrim f.name = ""
      · rw [if_pos h2] at hd; cases hd
      · rw [if_neg h2] at hd
        have hEnds : jsEndsWith (jsToLower (jsTrim f.email)) "@gmail.com" = true := by
          cases hE : jsEndsWith (jsToLower (jsTrim f.email)) "@gmail.com"
          · exact absurd (Or.inr hE) h1
          · rfl
        injection hd with hdd
        rw [← hdd]
        exact ⟨rfl, hEnds, rfl, h2⟩

/-- Witness for C9 at concrete inputs: a non-Gmail address is rejected, a
blank name is rejected. -/
theorem addUser_gmail_validation_witness :
    handleAddUser ⟨"x@yahoo.com", "Bob", "staff"⟩ 0 =
      .validationError "Only Gmail addresses are allowed" ∧
    handleAddUser ⟨" A@Gmail.com ", "   ", "staff"⟩ 0 =
      .validationError "Name is required" :=
  ⟨(addUser_gmail_validation ⟨"x@yahoo.com", "Bob", "staff"⟩ 0).1 (by decide),
   (addUser_gmail_validation ⟨" A@Gmail.com ", "   ", "staff"⟩ 0).2.1 (by decide) (by decide)⟩

/-! ## Claim theorems: merge timestamp resolution -/

/-- Claim C7: in the merge, the resulting `lastActive` of a view is
`pickMostRecent` of the view's current `lastActive` and the record's
`lastActive` (falling back to `lastLogin` when `lastActive` is nullish), and
`pickMostRecent` picks the more recent comparable value (ties keep the view's),
a value with no comparable milliseconds loses to one that has them, and when
neither has one the result has none. -/
theorem merge_lastActive_resolution (v : MergedUserView) (r : ActiveDoc) :
    (stepView v r).lastActive =
      pickMostRecent v.lastActive (jsOrT r.lastActive (jsOrT r.lastLogin JsTime.null)) ∧
    (∀ a b : JsTime, tsToMillis a = none → pickMostRecent a b = b) ∧
    (∀ a b : JsTime, tsToMillis a ≠ none → tsToMillis b = none → pickMostRecent a b = a) ∧
    (∀ (a b : JsTime) (ma mb : Int), tsToMillis a = some ma → tsToMillis b = some mb →
      tsToMillis (pickMostRecent a b) = some (max ma mb)) ∧
    (∀ a b : JsTime, tsToMillis a = none → tsToMillis b = none →
      tsToMillis (pickMostRecent a b) = none) := by
  refine ⟨rfl, ?_, ?_, ?_, ?_⟩
  · intro a b ha
    simp [pickMostRecent, ha]
  · intro a b ha hb
    obtain ⟨x, hx⟩ := Option.ne_none_iff_exists'.mp ha
    simp [pickMostRecent, hx, hb]
  · intro a b ma mb ha hb
    simp only [pickMostRecent, ha, hb]
    split_ifs with hge
    · rw [ha]
      congr 1
      omega
    · rw [hb]
      congr 1
      omega
  · intro a b ha hb
    simp [pickMostRecent, ha, hb]

/-- Witness for C7 at concrete inputs. -/
theorem merge_lastActive_resolution_witness :
    tsToMillis (pickMostRecent (JsTime.obj (some 5)) (JsTime.obj (some 9))) = some (max 5 9) ∧
    pickMostRecent JsTime.null (JsTime.obj (some 3)) = JsTime.obj (some 3) :=
  ⟨(merge_lastActive_resolution (freshView "a")
      ⟨"u1", none, none, none, none, .null, .null, .null⟩).2.2.2.1
    (JsTime.obj (some 5)) (JsTime.obj (some 9)) 5 9 rfl rfl,
   (merge_lastActive_resolution (freshView "a")
      ⟨"u1", none, none, none, none, .null, .null, .null⟩).2.1
    JsTime.null (JsTime.obj (some 3)) rfl⟩

/-! ## More store lemmas -/

theorem jmapHas_iff {α : Type} (m : List (String × α)) (k : String) :
    jmapHas m k = true ↔ k ∈ keysOf m := by
  induction m with
  | nil => simp [jmapHas, keysOf]
  | cons p t ih =>
    simp only [jmapHas, keysOf, List.map_cons, List.mem_cons, Bool.or_eq_true,
      decide_eq_true_eq, ih]
    constructor
    · rintro (h | h)
      · exact Or.inl h.symm
      · exact Or.inr h
    · rintro (h | h)
      · exact Or.inl h.symm
      · exact Or.inr h

theorem keysOf_jmapSet_update {α : Type} (m : List (String × α)) (k : String) (v : α)
    (h : jmapHas m k = true) :
    keysOf (jmapSet m k v) = keysOf m := by
  unfold jmapSet
  rw [if_pos h]
  unfold keysOf
  rw [List.map_map]
  refine List.map_congr_left ?_
  intro p _
  by_cases hpk : p.1 = k
  · simp [Function.comp, hpk]
  · simp [Function.comp, hpk]

theorem keysOf_jmapSet_append {α : Type} (m : List (String × α)) (k : String) (v : α)
    (h : jmapHas m k = false) :
    keysOf (jmapSet m k v) = keysOf m ++ [k] := by
  unfold jmapSet
  rw [if_neg (by simp [h])]
  simp [keysOf]

theorem mem_keysOf_jmapSet {α : Type} (m : List (String × α)) (k : String) (v : α)
    (a : String) :
    a ∈ keysOf (jmapSet m k v) ↔ a ∈ keysOf m ∨ a = k := by
  by_cases h : jmapHas m k = true
  · rw [keysOf_jmapSet_update m k v h]
    have hk : k ∈ keysOf m := (jmapHas_iff m k).mp h
    constructor
    · exact Or.inl
    · rintro (h' | rfl)
      · exact h'
      · exact hk
  · have h' : jmapHas m k = false := by simpa using h
    rw [keysOf_jmapSet_append m k v h']
    simp [List.mem_append]

theorem nodup_keysOf_jmapSet {α : Type} (m : List (String × α)) (k : String) (v : α)
    (h : (keysOf m).Nodup) :
    (keysOf (jmapSet m k v)).Nodup := by
  by_cases hh : jmapHas m k = true
  · rw [keysOf_jmapSet_update m k v hh]; exact h
  · have h' : jmapHas m k = false := by simpa using hh
    rw [keysOf_jmapSet_append m k v h']
    have hk : k ∉ keysOf m := fun hk => hh ((jmapHas_iff m k).mpr hk)
    simp [List.nodup_append, h, List.Disjoint]
    intro a ha hak
    exact hk (hak ▸ ha)

theorem mem_of_mem_jmapSet {α : Type} {m : List (String × α)} {k : String} {v : α}
    {p : String × α} (h : p ∈ jmapSet m k v) :
    p = (k, v) ∨ p ∈ m := by
  unfold jmapSet at h
  by_cases hh : jmapHas m k = true
  · rw [if_pos hh] at h
    obtain ⟨q, hq, hqe⟩ := List.mem_map.mp h
    by_cases hqk : q.1 = k
    · rw [if_pos hqk] at hqe
      exact Or.inl hqe.symm
    · rw [if_neg hqk] at hqe
      exact Or.inr (hqe ▸ hq)
  · rw [if_neg hh] at h
    rcases List.mem_append.mp h with h' | h'
    · exact Or.inr h'
    · exact Or.inl (List.mem_singleton.mp h')

theorem jmapGet_eq_none_iff {α : Type} (m : List (String × α)) (k : String) :
    jmapGet m k = none ↔ k ∉ keysOf m := by
  induction m with
  | nil => simp [jmapGet, keysOf]
  | cons p t ih =>
    by_cases hp : p.1 = k
    · simp [jmapGet, hp, keysOf]
    · simp [jmapGet, hp, keysOf, List.mem_cons, ih]
      intro h
      exact fun hk => hp hk.symm

theorem jmapGet_mem {α : Type} {m : List (String × α)} {k : String} {v : α}
    (h : jmapGet m k = some v) :
    (k, v) ∈ m := by
  induction m with
  | nil => simp [jmapGet] at h
  | cons p t ih =>
    by_cases hp : p.1 = k
    · rw [jmapGet, if_pos hp] at h
      have h2 : p.2 = v := Option.some.inj h
      have hpe : p = (k, v) := by
        obtain ⟨p1, p2⟩ := p
        cases hp
        cases h2
        rfl
      exact List.mem_cons.mpr (Or.inl hpe.symm)
    · rw [jmapGet, if_neg hp] at h
      exact List.mem_cons_of_mem _ (ih h)

theorem jmapGet_of_mem_nodup {α : Type} {m : List (String × α)}
    (hnd : (keysOf m).Nodup) {p : String × α} (hp : p ∈ m) :
    jmapGet m p.1 = some p.2 := by
  induction m with
  | nil => cases hp
  | cons q t ih =>
    rcases List.mem_cons.mp hp with rfl | hp'
    · simp [jmapGet]
    · have hq : q.1 ∉ keysOf t := by
        have := hnd
        simp only [keysOf, List.map_cons, List.nodup_cons] at this
        exact this.1
      have hne : ¬ q.1 = p.1 := by
        intro he
        exact hq (he ▸ List.mem_map.mpr ⟨p, hp', rfl⟩)
      rw [jmapGet, if_neg hne]
      exact ih (by
        have := hnd
        simp only [keysOf, List.map_cons, List.nodup_cons] at this
        exact this.2) hp'

/-! ## Merge-map invariants -/

/-- Every view stored in the map carries its own key as `email`. -/
def viewInv (m : ViewMap) : Prop := ∀ p ∈ m, p.2.email = p.1

/-- The structural invariant of the `byEmail` map: keys are distinct non-empty
normalized emails, and each view records its key. -/
def mapOk (m : ViewMap) : Prop := (keysOf m).Nodup ∧ "" ∉ keysOf m ∧ viewInv m

theorem stepView_email (v : MergedUserView) (r : ActiveDoc) :
    (stepView v r).email = v.email := rfl

theorem viewInv_jmapSet {m : ViewMap} {k : String} {v : MergedUserView}
    (h : viewInv m) (hv : v.email = k) : viewInv (jmapSet m k v) := by
  intro p hp
  rcases mem_of_mem_jmapSet hp with rfl | hp'
  · exact hv
  · exact h p hp'

theorem mapOk_nil : mapOk [] := by
  refine ⟨by simp [keysOf], by simp [keysOf], ?_⟩
  intro p hp
  cases hp

theorem mapOk_seedStep {m : ViewMap} (h : mapOk m) (a : ApprovedDoc) :
    mapOk (seedStep m a) := by
  simp only [seedStep]
  by_cases hn : normalizeEmail a.email = ""
  · rw [if_pos hn]; exact h
  · rw [if_neg hn]
    refine ⟨nodup_keysOf_jmapSet _ _ _ h.1, ?_, viewInv_jmapSet h.2.2 rfl⟩
    rw [mem_keysOf_jmapSet]
    rintro (h' | h')
    · exact h.2.1 h'
    · exact hn h'.symm

theorem mapOk_actStep {m : ViewMap} (h : mapOk m) (r : ActiveDoc) :
    mapOk (actStep m r) := by
  simp only [actStep]
  by_cases hn : normalizeEmail r.email = ""
  · rw [if_pos hn]; exact h
  · rw [if_neg hn]
    have hemail : ((jmapGet m (normalizeEmail r.email)).getD
        (freshView (normalizeEmail r.email))).email = normalizeEmail r.email := by
      cases hg : jmapGet m (normalizeEmail r.email) with
      | none => rfl
      | some v0 => simpa using h.2.2 _ (jmapGet_mem hg)
    refine ⟨nodup_keysOf_jmapSet _ _ _ h.1, ?_,
      viewInv_jmapSet h.2.2 ((stepView_email _ _).trans hemail)⟩
    rw [mem_keysOf_jmapSet]
    rintro (h' | h')
    · exact h.2.1 h'
    · exact hn h'.symm

theorem mapOk_seedFold (l : List ApprovedDoc) (m : ViewMap) (h : mapOk m) :
    mapOk (l.foldl seedStep m) := by
  induction l generalizing m with
  | nil => exact h
  | cons a t ih => exact ih _ (mapOk_seedStep h a)

theorem mapOk_actFold (l : List ActiveDoc) (m : ViewMap) (h : mapOk m) :
    mapOk (l.foldl actStep m) := by
  induction l generalizing m with
  | nil => exact h
  | cons r t ih => exact ih _ (mapOk_actStep h r)

theorem mem_keysOf_seedStep (m : ViewMap) (a : ApprovedDoc) (e : String) :
    e ∈ keysOf (seedStep m a) ↔
      e ∈ keysOf m ∨ (normalizeEmail a.email = e ∧ e ≠ "") := by
  simp only [seedStep]
  by_cases hn : normalizeEmail a.email = ""
  · rw [if_pos hn]
    constructor
    · exact Or.inl
    · rintro (h | ⟨h1, h2⟩)
      · exact h
      · exact absurd (h1.symm.trans hn) h2
  · rw [if_neg hn, mem_keysOf_jmapSet]
    constructor
    · rintro (h | h)
      · exact Or.inl h
      · exact Or.inr ⟨h.symm, fun hh => hn (h.symm.trans hh)⟩
    · rintro (h | ⟨h1, h2⟩)
      · exact Or.inl h
      · exact Or.inr h1.symm

theorem mem_keysOf_actStep (m : ViewMap) (r : ActiveDoc) (e : String) :
    e ∈ keysOf (actStep m r) ↔
      e ∈ keysOf m ∨ (normalizeEmail r.email = e ∧ e ≠ "") := by
  simp only [actStep]
  by_cases hn : normalizeEmail r.email = ""
  · rw [if_pos hn]
    constructor
    · exact Or.inl
    · rintro (h | ⟨h1, h2⟩)
      · exact h
      · exact absurd (h1.symm.trans hn) h2
  · rw [if_neg hn, mem_keysOf_jmapSet]
    constructor
    · rintro (h | h)
      · exact Or.inl h
      · exact Or.inr ⟨h.symm, fun hh => hn (h.symm.trans hh)⟩
    · rintro (h | ⟨h1, h2⟩)
      · exact Or.inl h
      · exact Or.inr h1.symm

theorem mem_keysOf_seedFold (l : List ApprovedDoc) (m : ViewMap) (e : String) :
    e ∈ keysOf (l.foldl seedStep m) ↔
      e ∈ keysOf m ∨ ∃ a ∈ l, normalizeEmail a.email = e ∧ e ≠ "" := by
  induction l generalizing m with
  | nil => simp
  | cons a t ih =>
    rw [List.foldl_cons, ih, mem_keysOf_seedStep]
    constructor
    · rintro ((h | h) | ⟨x, hx, hh⟩)
      · exact Or.inl h
      · exact Or.inr ⟨a, List.mem_cons_self a t, h⟩
      · exact Or.inr ⟨x, List.mem_cons_of_mem _ hx, hh⟩
    · rintro (h | ⟨x, hx, hh⟩)
      · exact Or.inl (Or.inl h)
      · rcases List.mem_cons.mp hx with rfl | hx'
        · exact Or.inl (Or.inr hh)
        · exact Or.inr ⟨x, hx', hh⟩

theorem mem_keysOf_actFold (l : List ActiveDoc) (m : ViewMap) (e : String) :
    e ∈ keysOf (l.foldl actStep m) ↔
      e ∈ keysOf m ∨ ∃ r ∈ l, normalizeEmail r.email = e ∧ e ≠ "" := by
  induction l generalizing m with
  | nil => simp
  | cons r t ih =>
    rw [List.foldl_cons, ih, mem_keysOf_actStep]
    constructor
    · rintro ((h | h) | ⟨x, hx, hh⟩)
      · exact Or.inl h
      · exact Or.inr ⟨r, List.mem_cons_self r t, h⟩
      · exact Or.inr ⟨x, List.mem_cons_of_mem _ hx, hh⟩
    · rintro (h | ⟨x, hx, hh⟩)
      · exact Or.inl (Or.inl h)
      · rcases List.mem_cons.mp hx with rfl | hx'
        · exact Or.inl (Or.inr hh)
        · exact Or.inr ⟨x, hx', hh⟩

/-- Claim C8: the output of the merge has exactly one view per normalized
email appearing (non-empty after normalization) in either input: output emails
are duplicate-free, and an email occurs in the output exactly when some
allow-list entry or some activity record normalizes to it. -/
theorem merge_one_view_per_email (approved : List ApprovedDoc) (active : List ActiveDoc) :
    ((mergedUsers approved active).map (fun v => v.email)).Nodup ∧
    (∀ e : String,
      (∃ v ∈ mergedUsers approved active, v.email = e) ↔
        (e ≠ "" ∧ ((∃ a ∈ approved, normalizeEmail a.email = e) ∨
          (∃ r ∈ active, normalizeEmail r.email = e)))) := by
  have hOk : mapOk (mergeMap approved active) :=
    mapOk_actFold _ _ (mapOk_seedFold _ _ mapOk_nil)
  have hperm : (mergedUsers approved active).Perm
      ((mergeMap approved active).map (fun p => p.2)) :=
    List.perm_insertionSort viewR _
  have hemails : ((mergeMap approved active).map (fun p => p.2)).map (fun v => v.email) =
      keysOf (mergeMap approved active) := by
    simp only [keysOf, List.map_map]
    exact List.map_congr_left (fun p hp => hOk.2.2 p hp)
  constructor
  · have h1 : (((mergeMap approved active).map (fun p => p.2)).map
        (fun v => v.email)).Nodup := by
      rw [hemails]; exact hOk.1
    exact ((hperm.map (fun v => v.email)).symm).nodup h1
  · intro e
    have hmem : (∃ v ∈ mergedUsers approved active, v.email = e) ↔
        e ∈ keysOf (mergeMap approved active) := by
      rw [← hemails]
      constructor
      · rintro ⟨v, hv, rfl⟩
        exact List.mem_map.mpr ⟨v, (hperm.mem_iff).mp hv, rfl⟩
      · intro h
        obtain ⟨v, hv, he⟩ := List.mem_map.mp h
        exact ⟨v, (hperm.mem_iff).mpr hv, he⟩
    have hkeys : e ∈ keysOf (mergeMap approved active) ↔
        ((e ∈ keysOf ([] : ViewMap) ∨ ∃ a ∈ approved, normalizeEmail a.email = e ∧ e ≠ "") ∨
          ∃ r ∈ active, normalizeEmail r.email = e ∧ e ≠ "") := by
      unfold mergeMap
      rw [mem_keysOf_actFold, mem_keysOf_seedFold]
    rw [hmem, hkeys]
    simp only [keysOf, List.map_nil, List.not_mem_nil, false_or]
    constructor
    · rintro (⟨a, ha, h1, h2⟩ | ⟨r, hr, h1, h2⟩)
      · exact ⟨h2, Or.inl ⟨a, ha, h1⟩⟩
      · exact ⟨h2, Or.inr ⟨r, hr, h1⟩⟩
    · rintro ⟨h2, (⟨a, ha, h1⟩ | ⟨r, hr, h1⟩)⟩
      · exact Or.inl ⟨a, ha, h1, h2⟩
      · exact Or.inr ⟨r, hr, h1, h2⟩

/-! ## Order theory of the sort comparator -/

theorem listLtChar_nil_right (b : List Char) : listLtChar b [] = false := by
  cases b <;> rfl

theorem listLtChar_trans {a b c : List Char} (hab : listLtChar a b = true)
    (hbc : listLtChar b c = true) : listLtChar a c = true := by
  induction a generalizing b c with
  | nil =>
    cases c with
    | nil => rw [listLtChar_nil_right] at hbc; cases hbc
    | cons _ _ => rfl
  | cons x xs ih =>
    cases b with
    | nil => simp [listLtChar] at hab
    | cons y ys =>
      cases c with
      | nil => rw [listLtChar_nil_right] at hbc; cases hbc
      | cons z zs =>
        simp only [listLtChar] at hab hbc ⊢
        by_cases hxy : x < y
        · by_cases hyz : y < z
          · rw [if_pos (lt_trans hxy hyz)]
          · rw [if_neg hyz] at hbc
            by_cases hzy : z < y
            · rw [if_pos hzy] at hbc; cases hbc
            · have hyeq : y = z := le_antisymm (not_lt.mp hzy) (not_lt.mp hyz)
              rw [← hyeq, if_pos hxy]
        · rw [if_neg hxy] at hab
          by_cases hyx : y < x
          · rw [if_pos hyx] at hab; cases hab
          · rw [if_neg hyx] at hab
            have hxeq : x = y := le_antisymm (not_lt.mp hyx) (not_lt.mp hxy)
            subst hxeq
            by_cases hxz : x < z
            · rw [if_pos hxz]
            · rw [if_neg hxz] at hbc ⊢
              by_cases hzx : z < x
              · rw [if_pos hzx] at hbc; cases hbc
              · rw [if_neg hzx] at hbc ⊢
                exact ih hab hbc

theorem listLtChar_asymm {a b : List Char} (h1 : listLtChar a b = true)
    (h2 : listLtChar b a = true) : False := by
  induction a generalizing b with
  | nil =>
    cases b with
    | nil => cases h1
    | cons _ _ => rw [listLtChar_nil_right] at h2; cases h2
  | cons x xs ih =>
    cases b with
    | nil => rw [listLtChar_nil_right] at h1; cases h1
    | cons y ys =>
      simp only [listLtChar] at h1 h2
      by_cases hxy : x < y
      · rw [if_neg (lt_asymm hxy), if_pos hxy] at h2
        cases h2
      · rw [if_neg hxy] at h1
        by_cases hyx : y < x
        · rw [if_pos hyx] at h1; cases h1
        · rw [if_neg hyx] at h1
          rw [if_neg hyx, if_neg hxy] at h2
          exact ih h1 h2

theorem listLtChar_connex {a b : List Char} (h1 : listLtChar a b = false)
    (h2 : listLtChar b a = false) : a = b := by
  induction a generalizing b with
  | nil =>
    cases b with
    | nil => rfl
    | cons _ _ => cases h1
  | cons x xs ih =>
    cases b with
    | nil => cases h2
    | cons y ys =>
      simp only [listLtChar] at h1 h2
      by_cases hxy : x < y
      · rw [if_pos hxy] at h1; cases h1
      · by_cases hyx : y < x
        · rw [if_pos hyx] at h2; cases h2
        · rw [if_neg hxy, if_neg hyx] at h1
          rw [if_neg hyx, if_neg hxy] at h2
          have hx : x = y := le_antisymm (not_lt.mp hyx) (not_lt.mp hxy)
          rw [hx, ih h1 h2]

theorem strLt_trans {x y z : String} (h1 : strLt x y = true) (h2 : strLt y z = true) :
    strLt x z = true := listLtChar_trans h1 h2

theorem strLt_asymm {x y : String} (h1 : strLt x y = true) (h2 : strLt y x = true) :
    False := listLtChar_asymm h1 h2

theorem strLt_connex {x y : String} (h1 : strLt x y = false) (h2 : strLt y x = false) :
    x = y := congrArg String.mk (listLtChar_connex h1 h2)

/-- The admin-first rank used by the comparator. -/
def rankOf (v : MergedUserView) : Nat := if roleIsAdmin v.role then 0 else 1

theorem viewR_iff (a b : MergedUserView) :
    viewR a b ↔ (rankOf a < rankOf b ∨
      (rankOf a = rankOf b ∧ (strLt a.email b.email = true ∨ a.email = b.email))) := by
  unfold viewR userCompare rankOf localeCompare
  cases ha : roleIsAdmin a.role <;> cases hb : roleIsAdmin b.role <;>
    simp only [ha, hb] <;> norm_num
  · by_cases h1 : strLt a.email b.email = true
    · simp [h1]
    · rw [if_neg h1]
      by_cases h2 : a.email = b.email
      · simp [h2]
      · simp [h1, h2]
  · by_cases h1 : strLt a.email b.email = true
    · simp [h1]
    · rw [if_neg h1]
      by_cases h2 : a.email = b.email
      · simp [h2]
      · simp [h1, h2]

instance : IsTrans MergedUserView viewR where
  trans := by
    intro a b c hab hbc
    rw [viewR_iff] at hab hbc ⊢
    rcases hab with h1 | ⟨h1, h2⟩ <;> rcases hbc with h3 | ⟨h3, h4⟩
    · exact Or.inl (lt_trans h1 h3)
    · exact Or.inl (by omega)
    · exact Or.inl (by omega)
    · refine Or.inr ⟨by omega, ?_⟩
      rcases h2 with h2 | h2 <;> rcases h4 with h4 | h4
      · exact Or.inl (strLt_trans h2 h4)
      · exact Or.inl (h4 ▸ h2)
      · exact Or.inl (by rw [h2]; exact h4)
      · exact Or.inr (h2.trans h4)

instance : IsTotal MergedUserView viewR where
  total := by
    intro a b
    rw [viewR_iff, viewR_iff]
    rcases Nat.lt_trichotomy (rankOf a) (rankOf b) with h | h | h
    · exact Or.inl (Or.inl h)
    · cases h1 : strLt a.email b.email
      · cases h2 : strLt b.email a.email
        · exact Or.inl (Or.inr ⟨h, Or.inr (strLt_connex h1 h2)⟩)
        · exact Or.inr (Or.inr ⟨h.symm, Or.inl rfl⟩)
      · exact Or.inl (Or.inr ⟨h, Or.inl rfl⟩)
    · exact Or.inr (Or.inl h)

theorem viewR_antisymm_email {a b : MergedUserView} (h1 : viewR a b) (h2 : viewR b a)
    (hne : a.email ≠ b.email) : False := by
  rw [viewR_iff] at h1 h2
  rcases h1 with h1 | ⟨h1, h1'⟩ <;> rcases h2 with h2 | ⟨h2, h2'⟩
  · omega
  · omega
  · omega
  · rcases h1' with h | h
    · rcases h2' with h' | h'
      · exact strLt_asymm h h'
      · exact hne h'.symm
    · exact hne h

/-- Two sorted lists of views with the same multiset of elements and
duplicate-free emails are identical. -/
theorem sorted_unique_by_email : ∀ (l1 l2 : List MergedUserView), l1.Perm l2 →
    l1.Sorted viewR → l2.Sorted viewR →
    (l1.map (fun v => v.email)).Nodup → l1 = l2 := by
  intro l1
  induction l1 with
  | nil =>
    intro l2 hp _ _ _
    have : l2.Perm ([] : List MergedUserView) := hp.symm
    rw [List.perm_nil] at this
    exact this.symm
  | cons a t1 ih =>
    intro l2 hp hs1 hs2 hnd
    cases l2 with
    | nil =>
      have : (a :: t1).Perm ([] : List MergedUserView) := hp
      rw [List.perm_nil] at this
      cases this
    | cons b t2 =>
      have hab : a = b := by
        by_contra hne
        have hain : a ∈ b :: t2 := hp.mem_iff.mp (List.mem_cons_self a t1)
        have hbin : b ∈ a :: t1 := hp.mem_iff.mpr (List.mem_cons_self b t2)
        have ha2 : a ∈ t2 := by
          rcases List.mem_cons.mp hain with h | h
          · exact absurd h hne
          · exact h
        have hb1 : b ∈ t1 := by
          rcases List.mem_cons.mp hbin with h | h
          · exact absurd h.symm hne
          · exact h
        have hba : viewR b a := (List.sorted_cons.mp hs2).1 a ha2
        have hab' : viewR a b := (List.sorted_cons.mp hs1).1 b hb1
        have hemne : a.email ≠ b.email := by
          intro he
          exact hne (List.inj_on_of_nodup_map hnd (List.mem_cons_self a t1)
            (List.mem_cons_of_mem a hb1) he)
        exact viewR_antisymm_email hab' hba hemne
      subst hab
      have ht : t1.Perm t2 := hp.cons_inv
      have hndt : (t1.map (fun v => v.email)).Nodup := by
        simpa [List.nodup_cons] using (List.nodup_cons.mp (by simpa using hnd)).2
      rw [ih t2 ht hs1.of_cons hs2.of_cons hndt]

/-! ## Characterizing the merge folds -/

/-- The (non-empty) normalized-email key an allow-list snapshot contributes. -/
def normKeyA (a : ApprovedDoc) : Option String :=
  if normalizeEmail a.email = "" then none else some (normalizeEmail a.email)

/-- The (non-empty) normalized-email key an activity snapshot contributes. -/
def normKeyR (r : ActiveDoc) : Option String :=
  if normalizeEmail r.email = "" then none else some (normalizeEmail r.email)

/-- The map entry seeded by one allow-list snapshot. -/
def seedEntry (a : ApprovedDoc) : Option (String × MergedUserView) :=
  if normalizeEmail a.email = "" then none
  else some (normalizeEmail a.email, seedView a (normalizeEmail a.email))

/-- The effect of the activity loop on one pre-existing map entry: apply the
unique matching record, if any. -/
def actEntryUpd (l : List ActiveDoc) (p : String × MergedUserView) :
    String × MergedUserView :=
  match l.find? (fun r => normalizeEmail r.email == p.1) with
  | some r => (p.1, stepView p.2 r)
  | none => p

/-- The entry freshly appended by one activity record whose key is not among
the given pre-existing keys. -/
def actNewEntry (keys : List String) (r : ActiveDoc) :
    Option (String × MergedUserView) :=
  if normalizeEmail r.email = "" then none
  else if normalizeEmail r.email ∈ keys then none
  else some (normalizeEmail r.email, stepView (freshView (normalizeEmail r.email)) r)

theorem keysOf_filterMap_seedEntry (l : List ApprovedDoc) :
    keysOf (l.filterMap seedEntry) = l.filterMap normKeyA := by
  induction l with
  | nil => rfl
  | cons a t ih =>
    by_cases hn : normalizeEmail a.email = ""
    · simp only [List.filterMap_cons, seedEntry, normKeyA, hn, if_pos]
      exact ih
    · simp only [List.filterMap_cons, seedEntry, normKeyA, hn, if_neg, ite_false]
      simp only [keysOf, List.map_cons] at ih ⊢
      rw [ih]

theorem jmapHas_false_of_not_mem {α : Type} {m : List (String × α)} {k : String}
    (h : k ∉ keysOf m) : jmapHas m k = false := by
  cases hh : jmapHas m k
  · rfl
  · exact absurd ((jmapHas_iff m k).mp hh) h

theorem seedFold_filterMap : ∀ (l : List ApprovedDoc) (m : ViewMap),
    (l.filterMap normKeyA).Nodup →
    (∀ e ∈ l.filterMap normKeyA, e ∉ keysOf m) →
    l.foldl seedStep m = m ++ l.filterMap seedEntry := by
  intro l
  induction l with
  | nil => intro m _ _; simp
  | cons a t ih =>
    intro m hnd hdisj
    rw [List.foldl_cons]
    by_cases hn : normalizeEmail a.email = ""
    · have hstep : seedStep m a = m := by simp [seedStep, hn]
      rw [hstep]
      have hnd' : (t.filterMap normKeyA).Nodup := by
        simpa [List.filterMap_cons, normKeyA, hn] using hnd
      have hdisj' : ∀ e ∈ t.filterMap normKeyA, e ∉ keysOf m := by
        intro e he
        exact hdisj e (by simpa [List.filterMap_cons, normKeyA, hn] using he)
      rw [ih m hnd' hdisj']
      simp [List.filterMap_cons, seedEntry, hn]
    · have hfmc : (a :: t).filterMap normKeyA =
          normalizeEmail a.email :: t.filterMap normKeyA := by
        simp [List.filterMap_cons, normKeyA, hn]
      have hkey : normalizeEmail a.email ∈ (a :: t).filterMap normKeyA := by
        rw [hfmc]; exact List.mem_cons_self _ _
      have hnotm : normalizeEmail a.email ∉ keysOf m := hdisj _ hkey
      have hstep : seedStep m a =
          m ++ [(normalizeEmail a.email, seedView a (normalizeEmail a.email))] := by
        simp only [seedStep]
        rw [if_neg hn]
        unfold jmapSet
        rw [if_neg (by simp [jmapHas_false_of_not_mem hnotm])]
      rw [hstep]
      rw [hfmc] at hnd
      have hnd' := (List.nodup_cons.mp hnd).2
      have hknot : normalizeEmail a.email ∉ t.filterMap normKeyA :=
        (List.nodup_cons.mp hnd).1
      have hdisj' : ∀ e ∈ t.filterMap normKeyA,
          e ∉ keysOf (m ++ [(normalizeEmail a.email, seedView a (normalizeEmail a.email))]) := by
        intro e he
        have h1 : e ∉ keysOf m := hdisj e (by rw [hfmc]; exact List.mem_cons_of_mem _ he)
        simp only [keysOf, List.map_append, List.map_cons, List.map_nil, List.mem_append,
          List.mem_singleton]
        rintro (h | h)
        · exact h1 h
        · exact hknot (h ▸ he)
      rw [ih _ hnd' hdisj']
      simp [List.filterMap_cons, seedEntry, hn]

theorem two_mem_le_length {α : Type} {L : List α} {a b : α} (ha : a ∈ L) (hb : b ∈ L)
    (hne : a ≠ b) : 2 ≤ L.length := by
  cases L with
  | nil => cases ha
  | cons x t =>
    cases t with
    | nil =>
      rcases List.mem_singleton.mp ha with rfl
      rcases List.mem_singleton.mp hb with rfl
      exact absurd rfl hne
    | cons y s => simp [List.length_cons]

theorem countP_le_one_unique {α : Type} {L : List α} {p : α → Bool}
    (hc : L.countP p ≤ 1) {a b : α} (ha : a ∈ L) (hb : b ∈ L)
    (hpa : p a = true) (hpb : p b = true) : a = b := by
  by_contra hne
  have ha' : a ∈ L.filter p := List.mem_filter.mpr ⟨ha, hpa⟩
  have hb' : b ∈ L.filter p := List.mem_filter.mpr ⟨hb, hpb⟩
  have h2 := two_mem_le_length ha' hb' hne
  rw [← List.countP_eq_length_filter] at h2
  omega

theorem find?_congr_perm {α : Type} {L1 L2 : List α} (p : α → Bool) (hperm : L1.Perm L2)
    (hc : L1.countP p ≤ 1) : L1.find? p = L2.find? p := by
  cases h1 : L1.find? p with
  | none =>
    rw [List.find?_eq_none] at h1
    symm
    rw [List.find?_eq_none]
    intro x hx
    exact h1 x (hperm.mem_iff.mpr hx)
  | some a =>
    have hpa := List.find?_some h1
    have hain : a ∈ L1 := List.mem_of_find?_eq_some h1
    cases h2 : L2.find? p with
    | none =>
      rw [List.find?_eq_none] at h2
      exact absurd hpa (h2 a (hperm.mem_iff.mp hain))
    | some b =>
      have hpb := List.find?_some h2
      have hbin : b ∈ L2 := List.mem_of_find?_eq_some h2
      rw [countP_le_one_unique hc hain (hperm.mem_iff.mpr hbin) hpa hpb]

theorem countP_normKeyR_le_one {l : List ActiveDoc}
    (hnd : (l.filterMap normKeyR).Nodup) (e : String) (he : e ≠ "") :
    l.countP (fun r => normalizeEmail r.email == e) ≤ 1 := by
  induction l with
  | nil => simp
  | cons r t ih =>
    rw [List.countP_cons]
    by_cases hr : normalizeEmail r.email = e
    · have hkey : normKeyR r = some e := by
        simp [normKeyR, hr, he]
      have hfm : (r :: t).filterMap normKeyR = e :: t.filterMap normKeyR := by
        simp [List.filterMap_cons, hkey]
      rw [hfm] at hnd
      have hnotin := (List.nodup_cons.mp hnd).1
      have hzero : t.countP (fun r' => normalizeEmail r'.email == e) = 0 := by
        rw [List.countP_eq_zero]
        intro x hx hpx
        rw [beq_iff_eq] at hpx
        exact hnotin (List.mem_filterMap.mpr ⟨x, hx, by simp [normKeyR, hpx, he]⟩)
      simp [hzero, hr]
    · have hnd' : (t.filterMap normKeyR).Nodup := by
        cases hk : normKeyR r with
        | none => simpa [List.filterMap_cons, hk] using hnd
        | some v =>
          exact (List.nodup_cons.mp (by simpa [List.filterMap_cons, hk] using hnd)).2
      have hcount := ih hnd'
      simp [hr]
      omega

theorem actEntryUpd_of_find_none {l : List ActiveDoc} {p : String × MergedUserView}
    (h : l.find? (fun r => normalizeEmail r.email == p.1) = none) :
    actEntryUpd l p = p := by
  simp [actEntryUpd, h]

theorem actEntryUpd_cons_of_ne {r : ActiveDoc} {l : List ActiveDoc}
    {p : String × MergedUserView} (h : ¬ normalizeEmail r.email = p.1) :
    actEntryUpd (r :: l) p = actEntryUpd l p := by
  unfold actEntryUpd
  rw [List.find?_cons_of_neg _ (by simp [h])]

theorem actEntryUpd_cons_of_eq {r : ActiveDoc} {l : List ActiveDoc}
    {p : String × MergedUserView} (h : normalizeEmail r.email = p.1) :
    actEntryUpd (r :: l) p = (p.1, stepView p.2 r) := by
  unfold actEntryUpd
  rw [List.find?_cons_of_pos _ (by simp [h])]

theorem actFold_char : ∀ (l : List ActiveDoc) (m : ViewMap),
    (l.filterMap normKeyR).Nodup →
    (keysOf m).Nodup → "" ∉ keysOf m →
    l.foldl actStep m = m.map (actEntryUpd l) ++ l.filterMap (actNewEntry (keysOf m)) := by
  intro l
  induction l with
  | nil =>
    intro m _ _ _
    simp only [List.foldl_nil, List.filterMap_nil, List.append_nil]
    have h1 : ∀ p ∈ m, actEntryUpd [] p = id p := fun p _ => actEntryUpd_of_find_none rfl
    symm
    calc List.map (actEntryUpd []) m = List.map id m := List.map_congr_left h1
      _ = m := List.map_id m
  | cons r t ih =>
    intro m hnd hkeysnd hempty
    rw [List.foldl_cons]
    by_cases hn : normalizeEmail r.email = ""
    · have hstep : actStep m r = m := by simp [actStep, hn]
      rw [hstep]
      have hfm : (r :: t).filterMap normKeyR = t.filterMap normKeyR := by
        simp [List.filterMap_cons, normKeyR, hn]
      rw [hfm] at hnd
      rw [ih m hnd hkeysnd hempty]
      congr 1
      · refine List.map_congr_left ?_
        intro p hp
        have hp1 : p.1 ∈ keysOf m := List.mem_map.mpr ⟨p, hp, rfl⟩
        have hne : ¬ normalizeEmail r.email = p.1 := by
          rw [hn]
          intro h
          exact hempty (h ▸ hp1)
        exact (actEntryUpd_cons_of_ne hne).symm
      · simp [List.filterMap_cons, actNewEntry, hn]
    · have hfm : (r :: t).filterMap normKeyR =
          normalizeEmail r.email :: t.filterMap normKeyR := by
        simp [List.filterMap_cons, normKeyR, hn]
      rw [hfm] at hnd
      have hndt := (List.nodup_cons.mp hnd).2
      have henot := (List.nodup_cons.mp hnd).1
      have hfindt :
          t.find? (fun r' => normalizeEmail r'.email == normalizeEmail r.email) = none := by
        rw [List.find?_eq_none]
        intro x hx hpx
        rw [beq_iff_eq] at hpx
        exact henot (List.mem_filterMap.mpr ⟨x, hx, by simp [normKeyR, hpx, hn]⟩)
      by_cases hin : normalizeEmail r.email ∈ keysOf m
      · obtain ⟨v0, hv0⟩ : ∃ v0, jmapGet m (normalizeEmail r.email) = some v0 := by
          cases hg : jmapGet m (normalizeEmail r.email) with
          | none => exact absurd hin ((jmapGet_eq_none_iff _ _).mp hg)
          | some v => exact ⟨v, rfl⟩
        have hstep : actStep m r = jmapSet m (normalizeEmail r.email) (stepView v0 r) := by
          simp [actStep, hn, hv0]
        have hhas : jmapHas m (normalizeEmail r.email) = true := (jmapHas_iff _ _).mpr hin
        have hkeys' : keysOf (jmapSet m (normalizeEmail r.email) (stepView v0 r)) = keysOf m :=
          keysOf_jmapSet_update _ _ _ hhas
        rw [hstep, ih _ hndt (by rw [hkeys']; exact hkeysnd) (by rw [hkeys']; exact hempty),
          hkeys']
        congr 1
        · have hset : jmapSet m (normalizeEmail r.email) (stepView v0 r) =
              m.map (fun p => if p.1 = normalizeEmail r.email
                then (normalizeEmail r.email, stepView v0 r) else p) := by
            unfold jmapSet
            rw [if_pos hhas]
          rw [hset, List.map_map]
          refine List.map_congr_left ?_
          intro p hp
          by_cases hpe : p.1 = normalizeEmail r.email
          · have hget := jmapGet_of_mem_nodup hkeysnd hp
            rw [hpe, hv0] at hget
            have hp2 : p.2 = v0 := (Option.some.inj hget).symm
            simp only [Function.comp]
            rw [if_pos hpe]
            rw [actEntryUpd_of_find_none hfindt]
            rw [actEntryUpd_cons_of_eq hpe.symm]
            rw [hpe, hp2]
          · simp only [Function.comp]
            rw [if_neg hpe]
            exact (actEntryUpd_cons_of_ne (fun h => hpe h.symm)).symm
        · have hnew : actNewEntry (keysOf m) r = none := by
            simp [actNewEntry, hn, hin]
          simp [List.filterMap_cons, hnew]
      · have hget : jmapGet m (normalizeEmail r.email) = none :=
          (jmapGet_eq_none_iff _ _).mpr hin
        have hstep : actStep m r =
            m ++ [(normalizeEmail r.email,
              stepView (freshView (normalizeEmail r.email)) r)] := by
          simp [actStep, hn, hget, jmapSet, jmapHas_false_of_not_mem hin]
        have hkeys' : keysOf (m ++ [(normalizeEmail r.email,
            stepView (freshView (normalizeEmail r.email)) r)]) =
            keysOf m ++ [normalizeEmail r.email] := by
          simp [keysOf]
        have hnd2 : (keysOf (m ++ [(normalizeEmail r.email,
            stepView (freshView (normalizeEmail r.email)) r)])).Nodup := by
          rw [hkeys']
          simp only [List.nodup_append, List.nodup_cons, List.not_mem_nil, List.nodup_nil,
            not_false_iff, true_and, and_true, List.Disjoint]
          refine ⟨hkeysnd, ?_⟩
          intro a ha hb
          rw [List.mem_singleton] at hb
          exact hin (hb ▸ ha)
        have hemp2 : "" ∉ keysOf (m ++ [(normalizeEmail r.email,
            stepView (freshView (normalizeEmail r.email)) r)]) := by
          rw [hkeys']
          rw [List.mem_append, List.mem_singleton]
          rintro (h | h)
          · exact hempty h
          · exact hn h.symm
        rw [hstep, ih _ hndt hnd2 hemp2, hkeys']
        have hmapsplit : (m ++ [(normalizeEmail r.email,
            stepView (freshView (normalizeEmail r.email)) r)]).map (actEntryUpd t) =
            m.map (actEntryUpd t) ++ [(normalizeEmail r.email,
              stepView (freshView (normalizeEmail r.email)) r)] := by
          rw [List.map_append]
          congr 1
          simp only [List.map_cons, List.map_nil]
          rw [actEntryUpd_of_find_none hfindt]
        rw [hmapsplit]
        have hmapcong : m.map (actEntryUpd t) = m.map (actEntryUpd (r :: t)) := by
          refine List.map_congr_left ?_
          intro p hp
          have hp1 : p.1 ∈ keysOf m := List.mem_map.mpr ⟨p, hp, rfl⟩
          have hne : ¬ normalizeEmail r.email = p.1 := by
            intro h
            exact hin (h ▸ hp1)
          exact (actEntryUpd_cons_of_ne hne).symm
        rw [hmapcong]
        have hnewcong : t.filterMap (actNewEntry (keysOf m ++ [normalizeEmail r.email])) =
            t.filterMap (actNewEntry (keysOf m)) := by
          refine List.filterMap_congr ?_
          intro x hx
          by_cases hxe : normalizeEmail x.email = ""
          · simp [actNewEntry, hxe]
          · have hxne : normalizeEmail x.email ≠ normalizeEmail r.email := by
              intro h
              exact henot (List.mem_filterMap.mpr ⟨x, hx, by simp [normKeyR, hxe, h, hn]⟩)
            simp [actNewEntry, hxe, List.mem_append, hxne, hn]
        rw [hnewcong]
        have hnewr : actNewEntry (keysOf m) r = some (normalizeEmail r.email,
            stepView (freshView (normalizeEmail r.email)) r) := by
          simp [actNewEntry, hn, hin]
        rw [List.filterMap_cons, hnewr]
        simp

theorem actNewEntry_congr_keys {k1 k2 : List String} (h : ∀ e, e ∈ k1 ↔ e ∈ k2)
    (r : ActiveDoc) : actNewEntry k1 r = actNewEntry k2 r := by
  unfold actNewEntry
  by_cases he : normalizeEmail r.email = ""
  · rw [if_pos he, if_pos he]
  · rw [if_neg he, if_neg he]
    by_cases hm : normalizeEmail r.email ∈ k1
    · rw [if_pos hm, if_pos ((h _).mp hm)]
    · rw [if_neg hm, if_neg (fun hh => hm ((h _).mpr hh))]

/-- Counterexample for C3: two allow-list snapshots sharing the normalized
email `"a"` but with different roles; swapping their order inside the
allow-list sequence (a permutation) changes the merged output, because the
later entry overwrites the earlier one during seeding. -/
theorem merge_order_dependent :
    List.Perm
      [({ id := "1", email := some "a", role := some "admin", name := some "A",
          displayName := none, createdAt := JsTime.null } : ApprovedDoc),
       { id := "2", email := some "a", role := some "staff", name := some "B",
          displayName := none, createdAt := JsTime.null }]
      [({ id := "2", email := some "a", role := some "staff", name := some "B",
          displayName := none, createdAt := JsTime.null } : ApprovedDoc),
       { id := "1", email := some "a", role := some "admin", name := some "A",
          displayName := none, createdAt := JsTime.null }] ∧
    mergedUsers
      [{ id := "1", email := some "a", role := some "admin", name := some "A",
          displayName := none, createdAt := JsTime.null },
       { id := "2", email := some "a", role := some "staff", name := some "B",
          displayName := none, createdAt := JsTime.null }] [] ≠
    mergedUsers
      [{ id := "2", email := some "a", role := some "staff", name := some "B",
          displayName := none, createdAt := JsTime.null },
       { id := "1", email := some "a", role := some "admin", name := some "A",
          displayName := none, createdAt := JsTime.null }] [] := by
  decide

/-- Claim C3 (amended): `merge` is deterministic, and its output is invariant
under permuting the elements inside either input sequence provided no two
allow-list snapshots share a (non-empty) normalized email and no two activity
snapshots share a (non-empty) normalized email; with duplicate normalized
emails inside a collection, the later element overwrites the earlier and
permutation can change the output. -/
theorem merge_perm_invariant (approved1 approved2 : List ApprovedDoc)
    (active1 active2 : List ActiveDoc)
    (hA : approved1.Perm approved2) (hR : active1.Perm active2)
    (hndA : (approved1.filterMap normKeyA).Nodup)
    (hndR : (active1.filterMap normKeyR).Nodup) :
    mergedUsers approved1 active1 = mergedUsers approved2 active2 := by
  have hseed1 : approved1.foldl seedStep [] = approved1.filterMap seedEntry := by
    simpa using seedFold_filterMap approved1 [] hndA (by intro e _; simp [keysOf])
  have hndA2 : (approved2.filterMap normKeyA).Nodup := (hA.filterMap normKeyA).nodup hndA
  have hndR2 : (active2.filterMap normKeyR).Nodup := (hR.filterMap normKeyR).nodup hndR
  have hseed2 : approved2.foldl seedStep [] = approved2.filterMap seedEntry := by
    simpa using seedFold_filterMap approved2 [] hndA2 (by intro e _; simp [keysOf])
  have hOk1 : mapOk (approved1.foldl seedStep []) := mapOk_seedFold _ _ mapOk_nil
  have hOk2 : mapOk (approved2.foldl seedStep []) := mapOk_seedFold _ _ mapOk_nil
  have hM1 : mergeMap approved1 active1 =
      (approved1.foldl seedStep []).map (actEntryUpd active1) ++
        active1.filterMap (actNewEntry (keysOf (approved1.foldl seedStep []))) :=
    actFold_char active1 _ hndR hOk1.1 hOk1.2.1
  have hM2 : mergeMap approved2 active2 =
      (approved2.foldl seedStep []).map (actEntryUpd active2) ++
        active2.filterMap (actNewEntry (keysOf (approved2.foldl seedStep []))) :=
    actFold_char active2 _ hndR2 hOk2.1 hOk2.2.1
  have hSperm : (approved1.foldl seedStep []).Perm (approved2.foldl seedStep []) := by
    rw [hseed1, hseed2]
    exact hA.filterMap seedEntry
  have hupd : ∀ p ∈ approved1.foldl seedStep [],
      actEntryUpd active1 p = actEntryUpd active2 p := by
    intro p hp
    have hp1 : p.1 ∈ keysOf (approved1.foldl seedStep []) := List.mem_map.mpr ⟨p, hp, rfl⟩
    have hpne : p.1 ≠ "" := fun h => hOk1.2.1 (h ▸ hp1)
    unfold actEntryUpd
    rw [find?_congr_perm _ hR (countP_normKeyR_le_one hndR p.1 hpne)]
  have hblock1 : (((approved1.foldl seedStep []).map (actEntryUpd active1))).Perm
      ((approved2.foldl seedStep []).map (actEntryUpd active2)) := by
    rw [List.map_congr_left hupd]
    exact hSperm.map (actEntryUpd active2)
  have hkeysiff : ∀ e, e ∈ keysOf (approved1.foldl seedStep []) ↔
      e ∈ keysOf (approved2.foldl seedStep []) := by
    intro e
    exact (hSperm.map (fun p => p.1)).mem_iff
  have hblock2 : (active1.filterMap
        (actNewEntry (keysOf (approved1.foldl seedStep [])))).Perm
      (active2.filterMap (actNewEntry (keysOf (approved2.foldl seedStep [])))) := by
    have hcong : ∀ x ∈ active1, actNewEntry (keysOf (approved1.foldl seedStep [])) x =
        actNewEntry (keysOf (approved2.foldl seedStep [])) x :=
      fun x _ => actNewEntry_congr_keys hkeysiff x
    rw [List.filterMap_congr hcong]
    exact hR.filterMap _
  have hMperm : (mergeMap approved1 active1).Perm (mergeMap approved2 active2) := by
    rw [hM1, hM2]
    exact hblock1.append hblock2
  have hOkM1 : mapOk (mergeMap approved1 active1) :=
    mapOk_actFold _ _ (mapOk_seedFold _ _ mapOk_nil)
  have hperm1 : (mergedUsers approved1 active1).Perm
      ((mergeMap approved1 active1).map (fun p => p.2)) :=
    List.perm_insertionSort viewR _
  have hperm2 : (mergedUsers approved2 active2).Perm
      ((mergeMap approved2 active2).map (fun p => p.2)) :=
    List.perm_insertionSort viewR _
  have hVperm : (mergedUsers approved1 active1).Perm (mergedUsers approved2 active2) :=
    (hperm1.trans (hMperm.map (fun p => p.2))).trans hperm2.symm
  have hnodup : ((mergedUsers approved1 active1).map (fun v => v.email)).Nodup := by
    have hemails : ((mergeMap approved1 active1).map (fun p => p.2)).map
        (fun v => v.email) = keysOf (mergeMap approved1 active1) := by
      simp only [keysOf, List.map_map]
      exact List.map_congr_left (fun p hp => hOkM1.2.2 p hp)
    have h1 : (((mergeMap approved1 active1).map (fun p => p.2)).map
        (fun v => v.email)).Nodup := by
      rw [hemails]
      exact hOkM1.1
    exact ((hperm1.map (fun v => v.email)).symm).nodup h1
  exact sorted_unique_by_email _ _ hVperm
    (List.sorted_insertionSort viewR _) (List.sorted_insertionSort viewR _) hnodup

/-- Witness for the amended C3 at concrete inputs: reversing both a two-entry
allow-list (distinct normalized emails) and a two-record activity list
(distinct normalized emails) leaves the merged output unchanged. -/
theorem merge_perm_invariant_witness :
    mergedUsers
      [{ id := "1", email := some "a@x.com", role := some "admin", name := some "A",
          displayName := none, createdAt := JsTime.null },
       { id := "2", email := some "b@x.com", role := some "staff", name := some "B",
          displayName := none, createdAt := JsTime.null }]
      [{ id := "u1", email := some "b@x.com", role := none, name := none,
          displayName := none, createdAt := JsTime.null,
          lastActive := JsTime.obj (some 7), lastLogin := JsTime.null },
       { id := "u2", email := some "c@x.com", role := none, name := none,
          displayName := none, createdAt := JsTime.null,
          lastActive := JsTime.null, lastLogin := JsTime.obj (some 3) }] =
    mergedUsers
      [{ id := "2", email := some "b@x.com", role := some "staff", name := some "B",
          displayName := none, createdAt := JsTime.null },
       { id := "1", email := some "a@x.com", role := some "admin", name := some "A",
          displayName := none, createdAt := JsTime.null }]
      [{ id := "u2", email := some "c@x.com", role := none, name := none,
          displayName := none, createdAt := JsTime.null,
          lastActive := JsTime.null, lastLogin := JsTime.obj (some 3) },
       { id := "u1", email := some "b@x.com", role := none, name := none,
          displayName := none, createdAt := JsTime.null,
          lastActive := JsTime.obj (some 7), lastLogin := JsTime.null }] :=
  merge_perm_invariant _ _ _ _ (by decide) (by decide) (by decide) (by decide)
